import Mathlib

/-!
Verification development for a habit-tracking repository consisting of two
standalone programs, `habit_diary.py` and `habit_journal.py`.  Both turn a
stream of dated habit-completion events into points, streaks, bonuses and
badges stored in SQLite tables.  This file gives a shallow embedding of the
two programs' data model and operations and proves properties about them.

Modelling conventions:
* A calendar date is its proleptic-Gregorian day ordinal (a natural number),
  exactly Python's `date.toordinal`: ordinal 1 is 0001-01-01, which is a
  Monday.  SQL `DATE(x) BETWEEN DATE(a) AND DATE(b)` on ISO date strings is
  chronological comparison, i.e. ordinal comparison.
* The composition `iso_to_monday(*day.isocalendar()[:2])` used by the diary
  yields the Monday of the ISO week containing `day`, i.e. the latest Monday
  not after `day`; with the ordinal representation (ordinal 1 = Monday) that
  is `d - ((d + 6) % 7)`, which is how `weekStart` is defined below.
* Each SQLite table is a list of rows; INSERT is list append.  Timestamp
  columns (`created_at`, `awarded_at`), human-readable note/reason texts and
  the CLI layer carry no claim-relevant information and are either dropped or
  stored as `""`.
* `habit_diary._calculate_points_for_completion` computes with Python floats.
  It is embedded as exact arithmetic with Python's round-half-to-even: the
  executable definition works over scaled integers and is proved equal
  (`dCalcPoints_eq`) to the formula over the source's rational constants.
  For every input the function can receive (difficulty multiplier in
  {1, 1.2, 1.5}, streak bonus in {0, 0.05, ..., 0.5}) the float computation
  `round(10 * dm * (1.0 + sb))` produces the same integer as the exact
  computation, because the few products that land on a half-integer (10.5,
  11.5, ..., 16.5, 19.5, 22.5) are hit exactly by the floats as well; so
  the exact model is faithful. -/

namespace HabitSpec

/-! ## Calendar: proleptic Gregorian day ordinals (Python `date.toordinal`) -/

def isLeap (y : ℕ) : Bool :=
  (y % 4 == 0 && y % 100 != 0) || (y % 400 == 0)

def daysInYear (y : ℕ) : ℕ := if isLeap y then 366 else 365

/-- Days strictly before January 1 of year `y` (years count from 1). -/
def daysBeforeYear : ℕ → ℕ
  | 0 => 0
  | 1 => 0
  | (y + 2) => daysBeforeYear (y + 1) + daysInYear (y + 1)

def daysInMonth (y m : ℕ) : ℕ :=
  if m == 2 then (if isLeap y then 29 else 28)
  else if m == 4 || m == 6 || m == 9 || m == 11 then 30
  else 31

/-- Days of year `y` strictly before the first of month `m`. -/
def daysBeforeMonth (y : ℕ) : ℕ → ℕ
  | 0 => 0
  | 1 => 0
  | (m + 2) => daysBeforeMonth y (m + 1) + daysInMonth y (m + 1)

/-- Python `date(y, m, d).toordinal()`. -/
def toOrdinal (y m d : ℕ) : ℕ := daysBeforeYear y + daysBeforeMonth y m + d

/-- Monday of the ISO week (Monday-Sunday) containing day `d`; the embedding
of `iso_to_monday(*d.isocalendar()[:2])` from `habit_diary.py`.  Ordinal 1 is
a Monday, so Mondays are the ordinals `≡ 1 (mod 7)`. -/
def weekStart (d : ℕ) : ℕ := d - (d + 6) % 7

/-- First day of the inclusive month range of `month_range` /
`month_report`. -/
def monthFirst (y m : ℕ) : ℕ := toOrdinal y m 1

/-- Last day of the inclusive month range: first of the next month minus a
day, as both `habit_diary.month_range` and `habit_journal.month_report`
compute it. -/
def monthLast (y m : ℕ) : ℕ :=
  (if m == 12 then toOrdinal (y + 1) 1 1 else toOrdinal y (m + 1) 1) - 1

/-- `DATE(x) BETWEEN DATE(first of month) AND DATE(last of month)`. -/
def inMonth (y m d : ℕ) : Bool :=
  decide (monthFirst y m ≤ d) && decide (d ≤ monthLast y m)

/-- Python's `round` applied to the exact nonnegative fraction `n / d`:
round half to even. -/
def roundHalfToEven (n d : ℕ) : ℕ :=
  let f := n / d
  let r := n % d
  if 2 * r = d then (if f % 2 = 0 then f else f + 1)
  else if 2 * r < d then f else f + 1

/-- Python's `round` on an exact rational: round half to even.  Used only in
statements relating the executable scaled-integer arithmetic to the source's
formula over its float constants; see `roundHalfToEven_eq_pyRoundQ`. -/
def pyRoundQ (q : ℚ) : ℤ :=
  if Int.fract q = 1 / 2 then (if 2 ∣ ⌊q⌋ then ⌊q⌋ else ⌊q⌋ + 1)
  else round q

/-! ## Shared string constants (SQL values and badge codes) -/

def kindCompletion : String := "COMPLETION"
def kindBonus : String := "BONUS"
def kindBadge : String := "BADGE"
def codeWeekly : String := "WEEKLY_CONSISTENCY"
def codeStreak7 : String := "STREAK_7"
def codeStreak30 : String := "STREAK_30"
def codeComplete30 : String := "COMPLETE_30"
def codeComplete100 : String := "COMPLETE_100"
def firstStepCode : String := "FIRST_STEP"
def streakCodeOf (n : ℕ) : String := "STREAK_" ++ toString n
def pointsCodeOf (n : ℕ) : String := "POINTS_" ++ toString n
def habitNotFoundMsg : String := "habit not found"
def duplicateForDateMsg : String := "duplicate entry for this habit and date"

/-! ## `habit_journal.py` -/

/-- Row of the journal's `habits` table (id, unique name, is_active). -/
structure JHabit where
  id : ℕ
  name : String
  is_active : Bool
deriving Repr, DecidableEq

/-- Row of the journal's `logs` table. -/
structure JLog where
  habit_id : ℕ
  date : ℕ
  completed : Bool
  points_awarded : ℤ
  streak_count : ℕ
  note : String
deriving Repr, DecidableEq

/-- Row of the journal's `badges` table (`awarded_at` timestamp dropped). -/
structure JBadge where
  code : String
  habit_id : Option ℕ
  points_at_award : ℤ
deriving Repr, DecidableEq

/-- The journal database. -/
structure JState where
  habits : List JHabit
  logs : List JLog
  badges : List JBadge
deriving Repr, DecidableEq

def jInit : JState := ⟨[], [], []⟩

/-- `HabitJournal.add_habit` (AUTOINCREMENT id modelled as a parameter). -/
def jAddHabit (s : JState) (hid : ℕ) (n : String) : JState :=
  { s with habits := s.habits ++ [⟨hid, n, true⟩] }

/-- `HabitJournal.get_habit_by_name`. -/
def jFindHabit (s : JState) (n : String) : Option JHabit :=
  s.habits.find? (fun h => h.name == n)

/-- `HabitJournal._get_total_points`: `SUM(points_awarded)` over `logs`. -/
def jTotalPoints (s : JState) : ℤ :=
  (s.logs.map (fun r => r.points_awarded)).sum

/-- `HabitJournal._count_logs_on_date`: counts rows of `logs` with the given
date, with no habit filter, i.e. across all habits. -/
def jCountLogsOnDate (s : JState) (d : ℕ) : ℕ :=
  (s.logs.filter (fun r => r.date == d)).length

/-- `HabitJournal._get_previous_day_streak`: `streak_count` of the log row of
this habit dated the day before, 0 if there is none. -/
def jPrevDayStreak (s : JState) (hid d : ℕ) : ℕ :=
  match s.logs.find? (fun r => r.habit_id == hid && r.date == d - 1) with
  | none => 0
  | some r => r.streak_count

/-- `HabitJournal._has_log_on_date`. -/
def jHasLogOnDate (s : JState) (hid d : ℕ) : Bool :=
  (s.logs.find? (fun r => r.habit_id == hid && r.date == d)).isSome

def jBadgeExists (s : JState) (code : String) (hid : Option ℕ) : Bool :=
  s.badges.any (fun b => b.code == code && b.habit_id == hid)

/-- `HabitJournal._award_badge`: INSERT guarded by `UNIQUE(code, habit_id)`,
with the `sqlite3.IntegrityError` swallowed (returns `none`).  SQLite treats
NULLs as distinct in UNIQUE constraints, so the constraint only ever fires
for a non-NULL `habit_id`; a duplicate `(code, NULL)` row would be inserted
without error. -/
def jAwardBadge (s : JState) (code : String) (hid : Option ℕ) :
    JState × Option String :=
  match hid with
  | some x =>
      if jBadgeExists s code (some x) then (s, none)
      else ({ s with badges := s.badges ++ [⟨code, some x, jTotalPoints s⟩] },
            some code)
  | none =>
      ({ s with badges := s.badges ++ [⟨code, none, jTotalPoints s⟩] },
       some code)

def jPointsThresholds : List ℕ := [100, 500, 1000, 2000, 5000]

/-- One iteration of the loop in
`HabitJournal._maybe_award_points_threshold_badges`. -/
def jAwardThreshold (total : ℤ) (s : JState) (t : ℕ) : JState × Option String :=
  if !jBadgeExists s (pointsCodeOf t) none && decide ((t : ℤ) ≤ total) then
    jAwardBadge s (pointsCodeOf t) none
  else (s, none)

/-- `HabitJournal._maybe_award_points_threshold_badges`; the total is read
once before the loop. -/
def jMaybeAwardThresholds (s : JState) : JState × List String :=
  let total := jTotalPoints s
  jPointsThresholds.foldl
    (fun acc t =>
      let r := jAwardThreshold total acc.1 t
      (r.1, acc.2 ++ r.2.toList))
    (s, [])

/-- `HabitJournal._maybe_award_first_step_badge`. -/
def jMaybeFirstStep (s : JState) : JState × List String :=
  if s.logs.length == 1 then
    let r := jAwardBadge s firstStepCode none
    (r.1, r.2.toList)
  else (s, [])

def jStreakThresholds : List ℕ := [3, 7, 14, 30, 60, 100]

/-- `HabitJournal._maybe_award_streak_badge`: fires on exact membership of
the streak count in the threshold list. -/
def jMaybeStreakBadge (s : JState) (hid streak : ℕ) : JState × List String :=
  if jStreakThresholds.contains streak then
    let r := jAwardBadge s (streakCodeOf streak) (some hid)
    (r.1, r.2.toList)
  else (s, [])

/-- The streak computed at the top of `HabitJournal.log_completion`:
`prev_streak + 1 if prev_streak > 0 else 1` (the source's else-branch is a
ternary whose two arms are both 1). -/
def jCurrentStreak (s : JState) (hid d : ℕ) : ℕ :=
  let prev_streak := jPrevDayStreak s hid d
  if 0 < prev_streak then prev_streak + 1 else 1

/-- The points formula of `HabitJournal.log_completion`:
`base_points + streak_bonus + combo_bonus` where
`streak_bonus = min(max(streak - 1, 0) * 2, 20)` and the flat combo bonus of
5 applies when at least two log rows (of any habit) already exist on the
date. -/
def jCompletionPoints (streak prior : ℕ) : ℕ :=
  10 + min ((streak - 1) * 2) 20 + (if 2 ≤ prior then 5 else 0)

/-- The database right after the INSERT of `HabitJournal.log_completion`:
the new row carries the computed points and the streak snapshot. -/
def jPostInsert (s : JState) (habit : JHabit) (d : ℕ) (note : String) :
    JState :=
  { s with logs := s.logs ++
      [⟨habit.id, d, true,
        (jCompletionPoints (jCurrentStreak s habit.id d)
          (jCountLogsOnDate s d) : ℤ),
        jCurrentStreak s habit.id d, note⟩] }

/-- `HabitJournal.log_completion`.  Returns the updated database and either
an error (unknown habit, or the `UNIQUE(habit_id, date)` violation that the
code converts to a `ValueError`; in both cases the database is unchanged) or
`(points_awarded, current_streak, codes of newly earned badges)`.  Date
validity (`is_valid_iso_date`) is inherent in the ordinal representation. -/
def jLogCompletion (s : JState) (habit_name : String) (d : ℕ) (note : String) :
    JState × Except String (ℤ × ℕ × List String) :=
  match jFindHabit s habit_name with
  | none => (s, Except.error habitNotFoundMsg)
  | some habit =>
      let current_streak := jCurrentStreak s habit.id d
      let awarded : ℕ := jCompletionPoints current_streak (jCountLogsOnDate s d)
      if jHasLogOnDate s habit.id d then (s, Except.error duplicateForDateMsg)
      else
        let r1 := jMaybeFirstStep (jPostInsert s habit d note)
        let r2 := jMaybeStreakBadge r1.1 habit.id current_streak
        let r3 := jMaybeAwardThresholds r2.1
        (r3.1, Except.ok ((awarded : ℤ), current_streak, r1.2 ++ r2.2 ++ r3.2))

/-- The points component of `HabitJournal.month_report`:
`SUM(points_awarded)` over logs dated in the inclusive month range. -/
def jMonthPoints (s : JState) (y m : ℕ) : ℤ :=
  ((s.logs.filter (fun r => inMonth y m r.date)).map
    (fun r => r.points_awarded)).sum

/-- Sum of journal log points over the union of two month ranges. -/
def jUnionPoints (s : JState) (y1 m1 y2 m2 : ℕ) : ℤ :=
  ((s.logs.filter (fun r => inMonth y1 m1 r.date || inMonth y2 m2 r.date)).map
    (fun r => r.points_awarded)).sum

/-- Transitions of the journal database: the two mutating operations.
Dates are restricted to ordinals ≥ 2: Python `date` ordinals are ≥ 1, and a
`log_completion` on ordinal 1 (0001-01-01) raises `OverflowError` while
computing the previous day in `_get_previous_day_streak`, before any write,
so it never changes the database. -/
inductive JStep : JState → JState → Prop
  | add (s : JState) (hid : ℕ) (n : String) : JStep s (jAddHabit s hid n)
  | log (s : JState) (n : String) (d : ℕ) (note : String) (hd : 2 ≤ d) :
      JStep s (jLogCompletion s n d note).1

/-- Journal databases reachable from the empty database. -/
def JReach (s : JState) : Prop := Relation.ReflTransGen JStep jInit s

/-! ## `habit_diary.py` -/

/-- Module constants of `habit_diary.py` (exact rationals, see header). -/
def BASE_POINTS : ℚ := 10

def DIFFICULTY_MULTIPLIER (d : ℕ) : ℚ :=
  if d == 1 then 1 else if d == 2 then 6 / 5 else if d == 3 then 3 / 2 else 1

def MAX_STREAK_BONUS_MULTIPLIER : ℚ := 1 / 2
def STREAK_STEP_BONUS : ℚ := 1 / 20
def WEEKLY_CONSISTENCY_BONUS : ℤ := 20

/-- `10 * DIFFICULTY_MULTIPLIER` as a natural number (the multipliers are
1.0, 1.2, 1.5 with the dict lookup defaulting to 1.0); see
`diffMult10_eq` below for the correspondence. -/
def diffMult10 (d : ℕ) : ℕ :=
  if d == 2 then 12 else if d == 3 then 15 else 10

/-- Row of the diary's `habits` table (cue/intention/min_action texts and
timestamps dropped; `DIFFICULTY_MULTIPLIER.get` defaults anyway, so
`difficulty` is an unrestricted natural). -/
structure DHabit where
  id : ℕ
  name : String
  difficulty : ℕ
  frequency_per_week : ℕ
deriving Repr, DecidableEq

/-- Row of the diary's `logs` table; `kind` is COMPLETION, BONUS or BADGE. -/
structure DLog where
  habit_id : ℕ
  log_date : ℕ
  completed : Bool
  points : ℤ
  kind : String
  note : String
deriving Repr, DecidableEq

/-- Row of the diary's `awards` table (`reason` and `created_at` dropped). -/
structure DAward where
  name : String
  habit_id : Option ℕ
  award_date : ℕ
  points : ℤ
  period_start : Option ℕ
  period_end : Option ℕ
deriving Repr, DecidableEq

/-- The diary database (the `weekly_reviews` table carries no claim-relevant
state and is dropped). -/
structure DState where
  habits : List DHabit
  logs : List DLog
  awards : List DAward
deriving Repr, DecidableEq

def dInit : DState := ⟨[], [], []⟩

/-- `HabitDiary.add_habit`. -/
def dAddHabit (s : DState) (hid : ℕ) (n : String) (difficulty freq : ℕ) :
    DState :=
  { s with habits := s.habits ++ [⟨hid, n, difficulty, freq⟩] }

/-- `HabitDiary._get_habit_by_id_or_name`, id branch. -/
def dFindHabit (s : DState) (hid : ℕ) : Option DHabit :=
  s.habits.find? (fun h => h.id == hid)

/-- The `SELECT DISTINCT log_date ... <= DATE(?)` query feeding
`_calculate_streak_length` (membership-queried only, so DISTINCT and ORDER
are immaterial). -/
def dCompletionDates (s : DState) (hid upto : ℕ) : List ℕ :=
  (s.logs.filter (fun r =>
      r.habit_id == hid && r.kind == kindCompletion && r.completed &&
        decide (r.log_date ≤ upto))).map
    (fun r => r.log_date)

/-- The backward day-by-day walk of `_calculate_streak_length`: length of
the run of consecutive members of `dates` going down from `day`.  The fuel
argument (instantiated with `day + 1`) only bounds the recursion; it covers
every day from `day` down to 0, and the walk always stops earlier at the
first missing day for any history of real dates (ordinals ≥ 1). -/
def dStreakWalk (dates : List ℕ) : ℕ → ℕ → ℕ
  | _, 0 => 0
  | day, (f + 1) =>
      if dates.contains day then 1 + dStreakWalk dates (day - 1) f else 0

/-- `HabitDiary._calculate_streak_length`: 1 on empty history, otherwise the
backward walk from `upto`, with a result of 0 corrected to 1. -/
def dCalcStreak (s : DState) (hid upto : ℕ) : ℕ :=
  let dates := dCompletionDates s hid upto
  if dates.isEmpty then 1
  else
    let streak := dStreakWalk dates upto (upto + 1)
    if streak == 0 then 1 else streak

/-- `HabitDiary._calculate_points_for_completion`:
`round(BASE * diff_mult * (1.0 + min(0.5, 0.05 * max(0, streak - 1))))`.
Written over scaled integers so that it evaluates by kernel reduction:
`20 * streak_bonus = min(20 * 0.5, (streak - 1))` caps at 10, and
`BASE * diff_mult * (1 + streak_bonus)` is the exact fraction
`(10 * diff_mult) * (20 + 20 * streak_bonus) / 20`; see `dCalcPoints_eq`
below for the equality with the formula over the rational constants. -/
def dCalcPoints (difficulty streak_length : ℕ) : ℤ :=
  let streak_bonus20 : ℕ := min 10 (streak_length - 1)
  (roundHalfToEven (diffMult10 difficulty * (20 + streak_bonus20)) 20 : ℤ)

/-- The completion count of `_award_weekly_consistency_bonus_if_eligible`:
point-bearing completions of the habit inside the ISO week of `d`. -/
def dWeekCount (s : DState) (hid d : ℕ) : ℕ :=
  (s.logs.filter (fun r =>
      r.habit_id == hid && r.kind == kindCompletion && r.completed &&
        decide (weekStart d ≤ r.log_date) &&
        decide (r.log_date ≤ weekStart d + 6))).length

/-- The `already_awarded` query of
`_award_weekly_consistency_bonus_if_eligible`: is there a
WEEKLY_CONSISTENCY award for this habit dated inside the ISO week of `d`? -/
def dWeeklyAlready (s : DState) (hid d : ℕ) : Bool :=
  s.awards.any (fun a =>
    a.name == codeWeekly && a.habit_id == some hid &&
      decide (weekStart d ≤ a.award_date) &&
      decide (a.award_date ≤ weekStart d + 6))

/-- `HabitDiary._award_weekly_consistency_bonus_if_eligible`: on success
inserts the award (recording the week bounds) and mirrors it as a BONUS row
in `logs`, returning the bonus points. -/
def dAwardWeekly (s : DState) (h : DHabit) (d : ℕ) : DState × ℤ :=
  if decide (h.frequency_per_week ≤ dWeekCount s h.id d) &&
      !dWeeklyAlready s h.id d then
    ({ s with
        awards := s.awards ++
          [⟨codeWeekly, some h.id, d, WEEKLY_CONSISTENCY_BONUS,
            some (weekStart d), some (weekStart d + 6)⟩],
        logs := s.logs ++
          [⟨h.id, d, false, WEEKLY_CONSISTENCY_BONUS, kindBonus, ""⟩] },
     WEEKLY_CONSISTENCY_BONUS)
  else (s, 0)

/-- `HabitDiary._get_total_completions`. -/
def dTotalCompletions (s : DState) (hid : ℕ) : ℕ :=
  (s.logs.filter (fun r =>
      r.habit_id == hid && r.kind == kindCompletion && r.completed)).length

/-- `HabitDiary._award_badge`: skips the insert only when an award with the
same name, habit and award date already exists; otherwise inserts the award
(zero points, NULL period) and mirrors it as a BADGE row in `logs`. -/
def dAwardBadge (s : DState) (hid whenD : ℕ) (badge_name : String) : DState :=
  if s.awards.any (fun a =>
      a.name == badge_name && a.habit_id == some hid &&
        a.award_date == whenD) then s
  else
    { s with
        awards := s.awards ++ [⟨badge_name, some hid, whenD, 0, none, none⟩],
        logs := s.logs ++ [⟨hid, whenD, false, 0, kindBadge, ""⟩] }

/-- `HabitDiary._check_and_award_badges` (returns 0 points). -/
def dCheckBadges (s : DState) (h : DHabit) (d : ℕ) : DState × ℤ :=
  let streak := dCalcStreak s h.id d
  let s1 := if streak == 7 then dAwardBadge s h.id d codeStreak7 else s
  let s2 := if streak == 30 then dAwardBadge s1 h.id d codeStreak30 else s1
  let total := dTotalCompletions s2 h.id
  let s3 := if total == 30 then dAwardBadge s2 h.id d codeComplete30 else s2
  let s4 := if total == 100 then dAwardBadge s3 h.id d codeComplete100 else s3
  (s4, 0)

/-- The duplicate pre-check of `HabitDiary.log_completion`: COMPLETION-kind
rows (point-bearing or annotation) of this habit on this date. -/
def dExistingCount (s : DState) (hid d : ℕ) : ℕ :=
  (s.logs.filter (fun r =>
      r.habit_id == hid && r.log_date == d &&
        r.kind == kindCompletion)).length

/-- The diary database right after the INSERT of a non-duplicate
`log_completion` call: the state against which the eligibility engine is
then evaluated.  Note the points are computed from the streak of the
pre-insert state. -/
def dPostInsert (s : DState) (habit : DHabit) (d : ℕ) (note : String) :
    DState :=
  { s with logs := s.logs ++
      [⟨habit.id, d, true,
        dCalcPoints habit.difficulty (dCalcStreak s habit.id d),
        kindCompletion, note⟩] }

/-- `HabitDiary.log_completion` with the habit referenced by id.  Returns
the updated database and the points gained by this call (`points +
bonus_points + badges_points`); the month-total half of the Python return
value is the separate pure report `dMonthTotalPoints` and carries no new
state.  On a duplicate date the call appends a zero-point annotation row and
awards nothing; note that the streak used for points is computed before the
new completion row is inserted. -/
def dLogCompletion (s : DState) (hid d : ℕ) (note : String) :
    DState × Except String ℤ :=
  match dFindHabit s hid with
  | none => (s, Except.error habitNotFoundMsg)
  | some habit =>
      if dExistingCount s habit.id d ≠ 0 then
        ({ s with logs :=
            s.logs ++ [⟨habit.id, d, false, 0, kindCompletion, note⟩] },
         Except.ok 0)
      else
        let points := dCalcPoints habit.difficulty (dCalcStreak s habit.id d)
        let r1 := dAwardWeekly (dPostInsert s habit d note) habit d
        let r2 := dCheckBadges r1.1 habit d
        (r2.1, Except.ok (points + r1.2 + r2.2))

/-- `HabitDiary._get_month_total_points`: the returned value sums the `logs`
table only (award points are echoed there as BONUS rows; the `awards` sum is
computed and discarded by the source). -/
def dMonthTotalPoints (s : DState) (y m : ℕ) : ℤ :=
  ((s.logs.filter (fun r => inMonth y m r.log_date)).map
    (fun r => r.points)).sum

/-- Sum of diary log points over the union of two month ranges. -/
def dUnionPoints (s : DState) (y1 m1 y2 m2 : ℕ) : ℤ :=
  ((s.logs.filter (fun r =>
      inMonth y1 m1 r.log_date || inMonth y2 m2 r.log_date)).map
    (fun r => r.points)).sum

/-- Transitions of the diary database.  Dates are restricted to ordinals
≥ 2: a completion logged on ordinal 1 (0001-01-01) would make the streak
walk step before the first representable Python date and raise
`OverflowError`, so histories begin no earlier than 0001-01-02. -/
inductive DStep : DState → DState → Prop
  | add (s : DState) (hid : ℕ) (n : String) (difficulty freq : ℕ) :
      DStep s (dAddHabit s hid n difficulty freq)
  | log (s : DState) (hid d : ℕ) (note : String) (hd : 2 ≤ d) :
      DStep s (dLogCompletion s hid d note).1

/-- Diary databases reachable from the empty database. -/
def DReach (s : DState) : Prop := Relation.ReflTransGen DStep dInit s

/-! ## Derived views and concrete scenarios used by the claims -/

/-- Difficulty representative: `DIFFICULTY_MULTIPLIER.get` defaults every
difficulty outside {2, 3} to the easy multiplier. -/
def normDiff (d : ℕ) : ℕ := if d == 2 then 2 else if d == 3 then 3 else 1

/-- Journal badges with a given code and a given (non-NULL) habit scope. -/
def jScopedCount (l : List JBadge) (code : String) (x : ℕ) : ℕ :=
  (l.filter (fun b => b.code == code && b.habit_id == some x)).length

/-- Diary awards with a given name and habit scope. -/
def dScopedAwards (l : List DAward) (n : String) (hid : ℕ) : List DAward :=
  l.filter (fun a => a.name == n && a.habit_id == some hid)

/-- Diary WEEKLY_CONSISTENCY awards of a habit dated in the ISO week whose
Monday is `ws`. -/
def dWeeklyAwards (l : List DAward) (hid ws : ℕ) : List DAward :=
  l.filter (fun a =>
    a.name == codeWeekly && a.habit_id == some hid &&
      weekStart a.award_date == ws)

/-- The journal database after logging `habit_name` on the `n` consecutive
days `d0, d0 + 1, ..., d0 + n - 1`, in order. -/
def jRun (s : JState) (habit_name : String) (d0 : ℕ) : ℕ → JState
  | 0 => s
  | (n + 1) => (jLogCompletion (jRun s habit_name d0 n) habit_name (d0 + n) "").1

/-- The diary database after logging habit `hid` on the `n` consecutive
days `d0, d0 + 1, ..., d0 + n - 1`, in order. -/
def dRun (s : DState) (hid d0 : ℕ) : ℕ → DState
  | 0 => s
  | (n + 1) => (dLogCompletion (dRun s hid d0 n) hid (d0 + n) "").1

/-- Scenario: one hard habit, logged on the 7 consecutive days 8..14, then
after skipping day 15 on the 7 consecutive days 16..22.  Day 8 is a Monday.
The streak rebuilt after the gap reaches 7 again on day 22. -/
def c1State : DState := dRun (dRun (dAddHabit dInit 1 "h" 3 7) 1 8 7) 1 16 7

/-- Scenario: a committed history of a single point-bearing completion of a
hard habit (difficulty 3) on day 8, about to be extended on day 9. -/
def c2State : DState :=
  ⟨[⟨1, "h", 3, 7⟩], [⟨1, 8, true, 15, kindCompletion, ""⟩], []⟩

/-- Scenario: the `c1State` history one call short of its second STREAK_7
grant (days 8..14 and 16..21 logged). -/
def c8State : DState := dRun (dRun (dAddHabit dInit 1 "h" 3 7) 1 8 7) 1 16 6

/-- Scenario: three journal habits `a`, `b`, `c` where `a` and `b` are
already logged on day 50 and `c` is not. -/
def c10State : JState :=
  (jLogCompletion
    ((jLogCompletion
        (jAddHabit (jAddHabit (jAddHabit jInit 1 "a") 2 "b") 3 "c")
        "a" 50 "").1)
    "b" 50 "").1

/-- The journal log row committed by the `k`-th call (day `d0 + k`) of a
run of consecutive-day completions of one fresh habit: the stored streak
snapshot is `k + 1` and no combo bonus applies (no other habit is logged). -/
def c5JRow (hid d0 k : ℕ) : JLog :=
  ⟨hid, d0 + k, true, (jCompletionPoints (k + 1) 0 : ℤ), k + 1, ""⟩

/-- The diary COMPLETION row committed by the `k`-th call (day `d0 + k`) of
a run of consecutive-day completions of one fresh habit: the points streak
is computed before the insert and is therefore always 1 (see C2). -/
def c5DRow (hid d0 diff k : ℕ) : DLog :=
  ⟨hid, d0 + k, true, dCalcPoints diff 1, kindCompletion, ""⟩

/-! ## Faithfulness of the scaled-integer points arithmetic -/

theorem roundHalfToEven_eq_pyRoundQ (n d : ℕ) (hd : 0 < d) :
    (roundHalfToEven n d : ℤ) = pyRoundQ ((n : ℚ) / (d : ℚ)) := by
  have hdQ : (0 : ℚ) < (d : ℚ) := by exact_mod_cast hd
  have h0 : (d : ℚ) * ((n / d : ℕ) : ℚ) + ((n % d : ℕ) : ℚ) = (n : ℚ) := by
    exact_mod_cast Nat.div_add_mod n d
  have hremQ : ((n % d : ℕ) : ℚ) < (d : ℚ) := by
    exact_mod_cast Nat.mod_lt n hd
  have hrem0 : (0 : ℚ) ≤ ((n % d : ℕ) : ℚ) := by positivity
  have hq : (n : ℚ) / (d : ℚ) =
      ((n / d : ℕ) : ℚ) + ((n % d : ℕ) : ℚ) / (d : ℚ) := by
    field_simp
    linarith
  have hnn : (0 : ℚ) ≤ (n : ℚ) / (d : ℚ) := by positivity
  have hfloor : ⌊(n : ℚ) / (d : ℚ)⌋ = ((n / d : ℕ) : ℤ) := by
    rw [← Int.natCast_floor_eq_floor hnn, Nat.floor_div_eq_div]
  have hfract : Int.fract ((n : ℚ) / (d : ℚ)) = ((n % d : ℕ) : ℚ) / (d : ℚ) :=
    Int.fract_div_natCast_eq_div_natCast_mod
  have hhalf_iff : Int.fract ((n : ℚ) / (d : ℚ)) = 1 / 2 ↔ 2 * (n % d) = d := by
    rw [hfract, div_eq_div_iff hdQ.ne' (by norm_num : (2 : ℚ) ≠ 0)]
    constructor
    · intro hcontra
      have h2 : ((n % d * 2 : ℕ) : ℚ) = ((d : ℕ) : ℚ) := by push_cast; linarith
      have h3 : n % d * 2 = d := by exact_mod_cast h2
      omega
    · intro hmd
      have h3 : n % d * 2 = d := by omega
      have h2 : ((n % d * 2 : ℕ) : ℚ) = ((d : ℕ) : ℚ) := by exact_mod_cast h3
      push_cast at h2
      linarith
  have hb0 : (0 : ℚ) ≤ ((n % d : ℕ) : ℚ) / (d : ℚ) := by positivity
  rcases lt_trichotomy (2 * (n % d)) d with hlt | heq | hgt
  · -- fractional part below one half: both sides round down
    have hblt : ((n % d : ℕ) : ℚ) / (d : ℚ) < 1 / 2 := by
      rw [div_lt_div_iff₀ hdQ (by norm_num : (0 : ℚ) < 2)]
      have h2 : ((2 * (n % d) : ℕ) : ℚ) < ((d : ℕ) : ℚ) := by exact_mod_cast hlt
      push_cast at h2
      linarith
    have hne' : Int.fract ((n : ℚ) / (d : ℚ)) ≠ 1 / 2 := fun hc =>
      absurd (hhalf_iff.mp hc) (by omega)
    have hround : round ((n : ℚ) / (d : ℚ)) = ((n / d : ℕ) : ℤ) := by
      rw [round_eq, Int.floor_eq_iff, hq]
      constructor
      · rw [Int.cast_natCast]
        linarith
      · rw [Int.cast_natCast]
        linarith
    have hval : roundHalfToEven n d = n / d := by
      unfold roundHalfToEven
      rw [if_neg (by omega : ¬ 2 * (n % d) = d), if_pos hlt]
    rw [hval]
    unfold pyRoundQ
    rw [if_neg hne', hround]
  · -- exactly one half: tie broken to even on both sides
    have hhalf : Int.fract ((n : ℚ) / (d : ℚ)) = 1 / 2 := hhalf_iff.mpr heq
    have hpar : (2 ∣ ⌊(n : ℚ) / (d : ℚ)⌋) ↔ n / d % 2 = 0 := by
      rw [hfloor]
      constructor
      · intro hdvd
        have h2 : 2 ∣ n / d := by exact_mod_cast hdvd
        omega
      · intro hmod
        have h2 : 2 ∣ n / d := by omega
        exact_mod_cast h2
    have hval : roundHalfToEven n d =
        if n / d % 2 = 0 then n / d else n / d + 1 := by
      unfold roundHalfToEven
      rw [if_pos heq]
    rw [hval]
    unfold pyRoundQ
    rw [if_pos hhalf]
    by_cases hp : n / d % 2 = 0
    · rw [if_pos hp, if_pos (hpar.mpr hp), hfloor]
    · rw [if_neg hp, if_neg (fun hdvd => hp (hpar.mp hdvd)), hfloor]
      push_cast
      ring
  · -- fractional part above one half: both sides round up
    have hbgt : 1 / 2 < ((n % d : ℕ) : ℚ) / (d : ℚ) := by
      rw [div_lt_div_iff₀ (by norm_num : (0 : ℚ) < 2) hdQ]
      have h2 : ((d : ℕ) : ℚ) < ((2 * (n % d) : ℕ) : ℚ) := by exact_mod_cast hgt
      push_cast at h2
      linarith
    have hblt1 : ((n % d : ℕ) : ℚ) / (d : ℚ) < 1 := by
      rw [div_lt_one hdQ]
      exact hremQ
    have hne' : Int.fract ((n : ℚ) / (d : ℚ)) ≠ 1 / 2 := fun hc =>
      absurd (hhalf_iff.mp hc) (by omega)
    have hround : round ((n : ℚ) / (d : ℚ)) = ((n / d : ℕ) : ℤ) + 1 := by
      rw [round_eq, Int.floor_eq_iff, hq]
      constructor
      · simp only [Int.cast_add, Int.cast_one, Int.cast_natCast]
        linarith
      · simp only [Int.cast_add, Int.cast_one, Int.cast_natCast]
        linarith
    have hval : roundHalfToEven n d = n / d + 1 := by
      unfold roundHalfToEven
      rw [if_neg (by omega : ¬ 2 * (n % d) = d),
        if_neg (by omega : ¬ 2 * (n % d) < d)]
    rw [hval]
    unfold pyRoundQ
    rw [if_neg hne', hround]
    push_cast
    ring

/-- `diffMult10` agrees with `10 * DIFFICULTY_MULTIPLIER`. -/
theorem diffMult10_eq (d : ℕ) :
    (diffMult10 d : ℚ) = BASE_POINTS * DIFFICULTY_MULTIPLIER d := by
  simp only [diffMult10, BASE_POINTS, DIFFICULTY_MULTIPLIER, beq_iff_eq]
  split_ifs <;> norm_num <;> omega

/-- The executable `dCalcPoints` equals the source formula
`round(BASE_POINTS * diff_mult * (1.0 + streak_bonus))` evaluated over
exact rationals with Python's rounding. -/
theorem dCalcPoints_eq (difficulty streak_length : ℕ) :
    dCalcPoints difficulty streak_length =
      pyRoundQ (BASE_POINTS * DIFFICULTY_MULTIPLIER difficulty *
        (1 + min MAX_STREAK_BONUS_MULTIPLIER
          (STREAK_STEP_BONUS * ((streak_length - 1 : ℕ) : ℚ)))) := by
  have hbonus : (1 : ℚ) + min MAX_STREAK_BONUS_MULTIPLIER
      (STREAK_STEP_BONUS * ((streak_length - 1 : ℕ) : ℚ)) =
      ((20 + min 10 (streak_length - 1) : ℕ) : ℚ) / 20 := by
    unfold MAX_STREAK_BONUS_MULTIPLIER STREAK_STEP_BONUS
    rcases Nat.le_total 10 (streak_length - 1) with hk | hk
    · rw [Nat.min_eq_left hk]
      have : (10 : ℚ) ≤ ((streak_length - 1 : ℕ) : ℚ) := by exact_mod_cast hk
      rw [min_eq_left (by linarith)]
      norm_num
    · rw [Nat.min_eq_right hk]
      have : ((streak_length - 1 : ℕ) : ℚ) ≤ 10 := by exact_mod_cast hk
      rw [min_eq_right (by linarith)]
      push_cast
      ring
  have hprod : BASE_POINTS * DIFFICULTY_MULTIPLIER difficulty *
      (1 + min MAX_STREAK_BONUS_MULTIPLIER
        (STREAK_STEP_BONUS * ((streak_length - 1 : ℕ) : ℚ))) =
      ((diffMult10 difficulty * (20 + min 10 (streak_length - 1)) : ℕ) : ℚ) /
        20 := by
    rw [hbonus, ← diffMult10_eq]
    push_cast
    ring
  rw [hprod]
  unfold dCalcPoints
  exact roundHalfToEven_eq_pyRoundQ _ 20 (by norm_num)

/-! ## C4: monotonicity and cap of the points formula -/

theorem diffMult10_cases (d : ℕ) :
    diffMult10 d = 10 ∨ diffMult10 d = 12 ∨ diffMult10 d = 15 := by
  unfold diffMult10
  split_ifs <;> simp

theorem roundHTE_cap (a k : ℕ) (ha : a = 10 ∨ a = 12 ∨ a = 15)
    (hk : k ≤ 10) : 2 * roundHalfToEven (a * (20 + k)) 20 ≤ 3 * a := by
  rcases ha with rfl | rfl | rfl <;> interval_cases k <;> decide

theorem roundHTE_mono (a k k' : ℕ) (ha : a = 10 ∨ a = 12 ∨ a = 15)
    (hkk : k ≤ k') (hk : k' ≤ 10) :
    roundHalfToEven (a * (20 + k)) 20 ≤ roundHalfToEven (a * (20 + k')) 20 := by
  rcases ha with rfl | rfl | rfl <;> interval_cases k' <;>
    interval_cases k <;> decide

/-- C4: for every difficulty class and all streak lengths `s ≤ s'`,
`pointsFor(difficulty, s) ≤ pointsFor(difficulty, s')`, and the result never
exceeds `BASE * difficultyMultiplier * (1 + MAX_STREAK_BONUS)`.  The first
two conjuncts are the diary's multiplicative engine; the last two are the
journal's additive variant (base 10, streak bonus capped at 20, so the cap
is `10 * (1 + 2) = 30` for any fixed combo situation `prior`). -/
theorem c4_pointsFor_monotone_capped (difficulty s s' : ℕ) (hss : s ≤ s') :
    dCalcPoints difficulty s ≤ dCalcPoints difficulty s' ∧
    (dCalcPoints difficulty s : ℚ) ≤
      BASE_POINTS * DIFFICULTY_MULTIPLIER difficulty *
        (1 + MAX_STREAK_BONUS_MULTIPLIER) ∧
    (∀ prior, jCompletionPoints s prior ≤ jCompletionPoints s' prior) ∧
    jCompletionPoints s 0 ≤ 30 := by
  refine ⟨?_, ?_, ?_, ?_⟩
  · simp only [dCalcPoints]
    have h1 : min 10 (s - 1) ≤ min 10 (s' - 1) := by omega
    have h2 : min 10 (s' - 1) ≤ 10 := by omega
    exact_mod_cast roundHTE_mono _ _ _ (diffMult10_cases difficulty) h1 h2
  · have hcap := roundHTE_cap (diffMult10 difficulty) (min 10 (s - 1))
      (diffMult10_cases difficulty) (by omega)
    have hmult := diffMult10_eq difficulty
    have hrhs : BASE_POINTS * DIFFICULTY_MULTIPLIER difficulty *
        (1 + MAX_STREAK_BONUS_MULTIPLIER) =
        ((diffMult10 difficulty : ℕ) : ℚ) * (3 / 2) := by
      rw [hmult]
      unfold MAX_STREAK_BONUS_MULTIPLIER
      ring
    rw [hrhs]
    simp only [dCalcPoints]
    have hc : ((2 * roundHalfToEven (diffMult10 difficulty *
        (20 + min 10 (s - 1))) 20 : ℕ) : ℚ) ≤
        ((3 * diffMult10 difficulty : ℕ) : ℚ) := by exact_mod_cast hcap
    push_cast at hc ⊢
    linarith
  · intro prior
    unfold jCompletionPoints
    have h1 : min ((s - 1) * 2) 20 ≤ min ((s' - 1) * 2) 20 := by omega
    omega
  · unfold jCompletionPoints
    norm_num
    omega

/-! ## C3: duplicate same-day logging policy -/

theorem jHasLogOnDate_of_mem {s : JState} {hid d : ℕ} {r : JLog}
    (hr : r ∈ s.logs) (hh : r.habit_id = hid) (hd : r.date = d) :
    jHasLogOnDate s hid d = true := by
  unfold jHasLogOnDate
  rw [List.find?_isSome]
  exact ⟨r, hr, by simp [hh, hd]⟩

theorem dExistingCount_pos_of_mem {s : DState} {hid d : ℕ} {r : DLog}
    (hr : r ∈ s.logs) (hh : r.habit_id = hid) (hd : r.log_date = d)
    (hk : r.kind = kindCompletion) : dExistingCount s hid d ≠ 0 := by
  unfold dExistingCount
  have hmem : r ∈ s.logs.filter (fun r =>
      r.habit_id == hid && r.log_date == d && r.kind == kindCompletion) :=
    List.mem_filter.mpr ⟨hr, by simp [hh, hd, hk]⟩
  intro hlen
  rw [List.length_eq_zero] at hlen
  rw [hlen] at hmem
  exact List.not_mem_nil r hmem

/-- C3: duplicate same-day logging follows each program's policy.  Journal
(reject): if a log row for the habit and date already exists (all journal
rows are point-bearing completions), the call fails with the duplicate error
and the database is unchanged.  Diary (absorb): if a point-bearing
completion for the habit and date exists, the call appends exactly one
zero-point non-completed COMPLETION annotation row, returns 0 gained points,
and leaves the habits table, every prior log row and the whole awards table
(grants) untouched — in particular no grant evaluation is triggered. -/
theorem c3_duplicate_policy :
    (∀ (s : JState) (nm : String) (d : ℕ) (note : String) (h : JHabit)
        (r : JLog),
      jFindHabit s nm = some h → r ∈ s.logs → r.habit_id = h.id →
      r.date = d →
      jLogCompletion s nm d note = (s, Except.error duplicateForDateMsg)) ∧
    (∀ (s : DState) (hid d : ℕ) (note : String) (h : DHabit) (r : DLog),
      dFindHabit s hid = some h → r ∈ s.logs → r.habit_id = h.id →
      r.log_date = d → r.kind = kindCompletion → r.completed = true →
      dLogCompletion s hid d note =
        ({ s with logs :=
            s.logs ++ [⟨h.id, d, false, 0, kindCompletion, note⟩] },
         Except.ok 0)) := by
  constructor
  · intro s nm d note h r hfind hr hh hd
    have hdup := jHasLogOnDate_of_mem hr hh hd
    unfold jLogCompletion
    rw [hfind]
    simp only [hdup, if_true]
  · intro s hid d note h r hfind hr hh hd hk hc
    have hdup := dExistingCount_pos_of_mem hr hh hd hk
    unfold dLogCompletion
    rw [hfind]
    simp only [hdup, ne_eq, not_false_iff, if_true, if_pos]

/-- Witness for C3: a one-row journal database and a one-row diary
database, each re-logged on the same date. -/
theorem c3_witness :
    jLogCompletion ⟨[⟨1, "a", true⟩], [⟨1, 8, true, 10, 1, ""⟩], []⟩
        "a" 8 "x" =
      (⟨[⟨1, "a", true⟩], [⟨1, 8, true, 10, 1, ""⟩], []⟩,
       Except.error duplicateForDateMsg) ∧
    dLogCompletion ⟨[⟨1, "b", 1, 7⟩], [⟨1, 8, true, 10, kindCompletion, ""⟩],
        []⟩ 1 8 "y" =
      (⟨[⟨1, "b", 1, 7⟩], [⟨1, 8, true, 10, kindCompletion, ""⟩,
          ⟨1, 8, false, 0, kindCompletion, "y"⟩], []⟩,
       Except.ok 0) :=
  ⟨c3_duplicate_policy.1 _ "a" 8 "x" ⟨1, "a", true⟩ ⟨1, 8, true, 10, 1, ""⟩
      rfl (by decide) rfl rfl,
   c3_duplicate_policy.2 _ 1 8 "y" ⟨1, "b", 1, 7⟩
      ⟨1, 8, true, 10, kindCompletion, ""⟩ rfl (by decide) rfl rfl rfl rfl⟩

/-! ## C9: log_completion is append-only -/

theorem jAwardBadge_frame (s : JState) (code : String) (hid : Option ℕ) :
    (jAwardBadge s code hid).1.habits = s.habits ∧
    (jAwardBadge s code hid).1.logs = s.logs ∧
    s.badges <+: (jAwardBadge s code hid).1.badges := by
  unfold jAwardBadge
  cases hid with
  | some x =>
      by_cases hex : jBadgeExists s code (some x) = true
      · simp [hex]
      · simp only [Bool.not_eq_true] at hex
        simp [hex, List.prefix_append]
  | none => simp [List.prefix_append]

theorem jMaybeFirstStep_frame (s : JState) :
    (jMaybeFirstStep s).1.habits = s.habits ∧
    (jMaybeFirstStep s).1.logs = s.logs ∧
    s.badges <+: (jMaybeFirstStep s).1.badges := by
  unfold jMaybeFirstStep
  by_cases hlen : (s.logs.length == 1) = true
  · simp only [hlen, if_true]
    exact jAwardBadge_frame s firstStepCode none
  · simp only [Bool.not_eq_true] at hlen
    simp [hlen]

theorem jMaybeStreakBadge_frame (s : JState) (hid streak : ℕ) :
    (jMaybeStreakBadge s hid streak).1.habits = s.habits ∧
    (jMaybeStreakBadge s hid streak).1.logs = s.logs ∧
    s.badges <+: (jMaybeStreakBadge s hid streak).1.badges := by
  by_cases hmem : streak ∈ jStreakThresholds
  · have := jAwardBadge_frame s (streakCodeOf streak) (some hid)
    simpa [jMaybeStreakBadge, hmem] using this
  · simp [jMaybeStreakBadge, hmem]

theorem jAwardThreshold_frame (total : ℤ) (s : JState) (t : ℕ) :
    (jAwardThreshold total s t).1.habits = s.habits ∧
    (jAwardThreshold total s t).1.logs = s.logs ∧
    s.badges <+: (jAwardThreshold total s t).1.badges := by
  unfold jAwardThreshold
  split_ifs with hc
  · exact jAwardBadge_frame s (pointsCodeOf t) none
  · simp

theorem jThresholdFold_frame (l : List ℕ) (total : ℤ) :
    ∀ (s : JState) (acc : List String),
      (l.foldl (fun acc t =>
          let r := jAwardThreshold total acc.1 t
          (r.1, acc.2 ++ r.2.toList)) (s, acc)).1.habits = s.habits ∧
      (l.foldl (fun acc t =>
          let r := jAwardThreshold total acc.1 t
          (r.1, acc.2 ++ r.2.toList)) (s, acc)).1.logs = s.logs ∧
      s.badges <+: (l.foldl (fun acc t =>
          let r := jAwardThreshold total acc.1 t
          (r.1, acc.2 ++ r.2.toList)) (s, acc)).1.badges := by
  induction l with
  | nil => intro s acc; exact ⟨rfl, rfl, List.prefix_rfl⟩
  | cons t ts ih =>
      intro s acc
      simp only [List.foldl_cons]
      rcases jAwardThreshold_frame total s t with ⟨hh, hl, hb⟩
      rcases ih (jAwardThreshold total s t).1
          (acc ++ ((jAwardThreshold total s t).2).toList) with ⟨ihh, ihl, ihb⟩
      exact ⟨by rw [ihh, hh], by rw [ihl, hl], hb.trans ihb⟩

theorem jMaybeAwardThresholds_frame (s : JState) :
    (jMaybeAwardThresholds s).1.habits = s.habits ∧
    (jMaybeAwardThresholds s).1.logs = s.logs ∧
    s.badges <+: (jMaybeAwardThresholds s).1.badges := by
  unfold jMaybeAwardThresholds
  exact jThresholdFold_frame jPointsThresholds (jTotalPoints s) s []

theorem dAwardBadge_frame (s : DState) (hid whenD : ℕ) (badge_name : String) :
    (dAwardBadge s hid whenD badge_name).habits = s.habits ∧
    s.logs <+: (dAwardBadge s hid whenD badge_name).logs ∧
    s.awards <+: (dAwardBadge s hid whenD badge_name).awards := by
  unfold dAwardBadge
  split_ifs with hc
  · exact ⟨rfl, List.prefix_rfl, List.prefix_rfl⟩
  · exact ⟨rfl, List.prefix_append _ _, List.prefix_append _ _⟩

theorem dAwardWeekly_frame (s : DState) (h : DHabit) (d : ℕ) :
    (dAwardWeekly s h d).1.habits = s.habits ∧
    s.logs <+: (dAwardWeekly s h d).1.logs ∧
    s.awards <+: (dAwardWeekly s h d).1.awards := by
  unfold dAwardWeekly
  split_ifs with hc
  · exact ⟨rfl, List.prefix_append _ _, List.prefix_append _ _⟩
  · exact ⟨rfl, List.prefix_rfl, List.prefix_rfl⟩

theorem dFrame_trans {a b c : DState}
    (h1 : b.habits = a.habits ∧ a.logs <+: b.logs ∧ a.awards <+: b.awards)
    (h2 : c.habits = b.habits ∧ b.logs <+: c.logs ∧ b.awards <+: c.awards) :
    c.habits = a.habits ∧ a.logs <+: c.logs ∧ a.awards <+: c.awards :=
  ⟨h2.1.trans h1.1, h1.2.1.trans h2.2.1, h1.2.2.trans h2.2.2⟩

theorem dCheckBadges_frame (s : DState) (h : DHabit) (d : ℕ) :
    (dCheckBadges s h d).1.habits = s.habits ∧
    s.logs <+: (dCheckBadges s h d).1.logs ∧
    s.awards <+: (dCheckBadges s h d).1.awards := by
  simp only [dCheckBadges]
  split_ifs <;>
    first
      | exact ⟨rfl, List.prefix_rfl, List.prefix_rfl⟩
      | exact dAwardBadge_frame _ _ _ _
      | exact dFrame_trans (dAwardBadge_frame _ _ _ _) (dAwardBadge_frame _ _ _ _)
      | exact dFrame_trans (dFrame_trans (dAwardBadge_frame _ _ _ _)
          (dAwardBadge_frame _ _ _ _)) (dAwardBadge_frame _ _ _ _)
      | exact dFrame_trans (dFrame_trans (dFrame_trans (dAwardBadge_frame _ _ _ _)
          (dAwardBadge_frame _ _ _ _)) (dAwardBadge_frame _ _ _ _))
          (dAwardBadge_frame _ _ _ _)

theorem jFrame_trans {a b c : JState}
    (h1 : b.habits = a.habits ∧ a.logs <+: b.logs ∧ a.badges <+: b.badges)
    (h2 : c.habits = b.habits ∧ b.logs <+: c.logs ∧ b.badges <+: c.badges) :
    c.habits = a.habits ∧ a.logs <+: c.logs ∧ a.badges <+: c.badges :=
  ⟨h2.1.trans h1.1, h1.2.1.trans h2.2.1, h1.2.2.trans h2.2.2⟩

theorem jFrameOfParts {a b : JState}
    (h : b.habits = a.habits ∧ b.logs = a.logs ∧ a.badges <+: b.badges) :
    b.habits = a.habits ∧ a.logs <+: b.logs ∧ a.badges <+: b.badges :=
  ⟨h.1, by rw [h.2.1], h.2.2⟩

/-- Branch equations of `jLogCompletion`. -/
theorem jLogCompletion_eq_of_dup {s : JState} {nm : String} {d : ℕ}
    {note : String} {habit : JHabit} (hf : jFindHabit s nm = some habit)
    (hdup : jHasLogOnDate s habit.id d = true) :
    jLogCompletion s nm d note = (s, Except.error duplicateForDateMsg) := by
  unfold jLogCompletion
  rw [hf]
  simp only [hdup, if_true]

theorem jLogCompletion_eq_of_ok {s : JState} {nm : String} {d : ℕ}
    {note : String} {habit : JHabit} (hf : jFindHabit s nm = some habit)
    (hdup : jHasLogOnDate s habit.id d = false) :
    jLogCompletion s nm d note =
      ((jMaybeAwardThresholds
          (jMaybeStreakBadge (jMaybeFirstStep (jPostInsert s habit d note)).1
            habit.id (jCurrentStreak s habit.id d)).1).1,
       Except.ok
        ((jCompletionPoints (jCurrentStreak s habit.id d)
            (jCountLogsOnDate s d) : ℤ),
         jCurrentStreak s habit.id d,
         (jMaybeFirstStep (jPostInsert s habit d note)).2 ++
           (jMaybeStreakBadge
              (jMaybeFirstStep (jPostInsert s habit d note)).1
              habit.id (jCurrentStreak s habit.id d)).2 ++
           (jMaybeAwardThresholds
              (jMaybeStreakBadge
                (jMaybeFirstStep (jPostInsert s habit d note)).1
                habit.id (jCurrentStreak s habit.id d)).1).2)) := by
  unfold jLogCompletion
  rw [hf]
  simp only [hdup, Bool.false_eq_true, if_false]

theorem jLogCompletion_frame (s : JState) (nm : String) (d : ℕ)
    (note : String) :
    (jLogCompletion s nm d note).1.habits = s.habits ∧
    s.logs <+: (jLogCompletion s nm d note).1.logs ∧
    s.badges <+: (jLogCompletion s nm d note).1.badges := by
  cases hf : jFindHabit s nm with
  | none =>
      have heq : jLogCompletion s nm d note =
          (s, Except.error habitNotFoundMsg) := by
        unfold jLogCompletion
        rw [hf]
      rw [heq]
      exact ⟨rfl, List.prefix_rfl, List.prefix_rfl⟩
  | some habit =>
      by_cases hdup : jHasLogOnDate s habit.id d = true
      · rw [jLogCompletion_eq_of_dup hf hdup]
        exact ⟨rfl, List.prefix_rfl, List.prefix_rfl⟩
      · simp only [Bool.not_eq_true] at hdup
        rw [jLogCompletion_eq_of_ok hf hdup]
        dsimp only
        refine ⟨?_, ?_, ?_⟩
        · rw [(jMaybeAwardThresholds_frame _).1]
          rw [(jMaybeStreakBadge_frame _ _ _).1]
          rw [(jMaybeFirstStep_frame _).1]
          rfl
        · rw [(jMaybeAwardThresholds_frame _).2.1]
          rw [(jMaybeStreakBadge_frame _ _ _).2.1]
          rw [(jMaybeFirstStep_frame _).2.1]
          show s.logs <+: (jPostInsert s habit d note).logs
          exact List.prefix_append _ _
        · refine List.IsPrefix.trans ?_ (jMaybeAwardThresholds_frame _).2.2
          refine List.IsPrefix.trans ?_ (jMaybeStreakBadge_frame _ _ _).2.2
          exact (jMaybeFirstStep_frame (jPostInsert s habit d note)).2.2

/-- Branch equations of `dLogCompletion`. -/
theorem dLogCompletion_eq_of_dup {s : DState} {hid d : ℕ} {note : String}
    {habit : DHabit} (hf : dFindHabit s hid = some habit)
    (hdup : dExistingCount s habit.id d ≠ 0) :
    dLogCompletion s hid d note =
      ({ s with logs :=
          s.logs ++ [⟨habit.id, d, false, 0, kindCompletion, note⟩] },
       Except.ok 0) := by
  unfold dLogCompletion
  rw [hf]
  simp only [if_pos hdup]

theorem dLogCompletion_eq_of_ok {s : DState} {hid d : ℕ} {note : String}
    {habit : DHabit} (hf : dFindHabit s hid = some habit)
    (hdup : dExistingCount s habit.id d = 0) :
    dLogCompletion s hid d note =
      ((dCheckBadges (dAwardWeekly (dPostInsert s habit d note) habit d).1
          habit d).1,
       Except.ok
        (dCalcPoints habit.difficulty (dCalcStreak s habit.id d) +
          (dAwardWeekly (dPostInsert s habit d note) habit d).2 +
          (dCheckBadges
            (dAwardWeekly (dPostInsert s habit d note) habit d).1
            habit d).2)) := by
  unfold dLogCompletion
  rw [hf]
  simp only [hdup, ne_eq, not_true_eq_false, if_false]

theorem dLogCompletion_frame (s : DState) (hid d : ℕ) (note : String) :
    (dLogCompletion s hid d note).1.habits = s.habits ∧
    s.logs <+: (dLogCompletion s hid d note).1.logs ∧
    s.awards <+: (dLogCompletion s hid d note).1.awards := by
  cases hf : dFindHabit s hid with
  | none =>
      have heq : dLogCompletion s hid d note =
          (s, Except.error habitNotFoundMsg) := by
        unfold dLogCompletion
        rw [hf]
      rw [heq]
      exact ⟨rfl, List.prefix_rfl, List.prefix_rfl⟩
  | some habit =>
      by_cases hdup : dExistingCount s habit.id d = 0
      · rw [dLogCompletion_eq_of_ok hf hdup]
        refine dFrame_trans (dFrame_trans
          (⟨rfl, List.prefix_append _ _, List.prefix_rfl⟩ :
            (dPostInsert s habit d note).habits = s.habits ∧
            s.logs <+: (dPostInsert s habit d note).logs ∧
            s.awards <+: (dPostInsert s habit d note).awards)
          (dAwardWeekly_frame _ habit d))
          (dCheckBadges_frame _ habit d)
      · rw [dLogCompletion_eq_of_dup hf hdup]
        exact ⟨rfl, List.prefix_append _ _, List.prefix_rfl⟩

/-- C9: every `log_completion` call only appends rows.  In both programs the
habits table is untouched, and the logs and badges/awards tables of the
prior database are a prefix of the new ones — so every already-persisted
row, in particular the stored streak snapshots and points of earlier
(possibly later-dated) events of a backdated call, is unchanged. -/
theorem c9_log_completion_append_only :
    (∀ (s : JState) (nm : String) (d : ℕ) (note : String),
      (jLogCompletion s nm d note).1.habits = s.habits ∧
      s.logs <+: (jLogCompletion s nm d note).1.logs ∧
      s.badges <+: (jLogCompletion s nm d note).1.badges) ∧
    (∀ (s : DState) (hid d : ℕ) (note : String),
      (dLogCompletion s hid d note).1.habits = s.habits ∧
      s.logs <+: (dLogCompletion s hid d note).1.logs ∧
      s.awards <+: (dLogCompletion s hid d note).1.awards) :=
  ⟨jLogCompletion_frame, dLogCompletion_frame⟩

/-! ## C10: flat combo bonus counts same-day logs across all habits -/

/-- C10: on a successful call, `habit_journal.log_completion` awards
`base + streak_bonus + combo` where the +5 combo applies exactly when at
least two log rows already exist for the date, counted by
`jCountLogsOnDate` across ALL habits (its filter has no habit condition).
The second conjunct exhibits the cross-habit effect concretely: with
habits `a` and `b` already logged on day 50, logging `c` on day 50 yields
15 points; with only habit `a` logged it yields 10. -/
theorem c10_combo_counts_all_habits :
    (∀ (s : JState) (nm : String) (d : ℕ) (note : String) (h : JHabit),
      jFindHabit s nm = some h → jHasLogOnDate s h.id d = false →
      ∃ badges, (jLogCompletion s nm d note).2 =
        Except.ok ((jCompletionPoints (jCurrentStreak s h.id d)
            (jCountLogsOnDate s d) : ℤ), jCurrentStreak s h.id d, badges) ∧
        jCompletionPoints (jCurrentStreak s h.id d) (jCountLogsOnDate s d) =
          10 + min ((jCurrentStreak s h.id d - 1) * 2) 20 +
            (if 2 ≤ jCountLogsOnDate s d then 5 else 0)) ∧
    ((jLogCompletion c10State "c" 50 "").2 = Except.ok (15, 1, []) ∧
      (jLogCompletion
        ((jLogCompletion (jAddHabit (jAddHabit (jAddHabit jInit 1 "a") 2 "b")
            3 "c") "a" 50 "").1) "c" 50 "").2 = Except.ok (10, 1, [])) := by
  constructor
  · intro s nm d note h hf hdup
    rw [jLogCompletion_eq_of_ok hf hdup]
    exact ⟨_, rfl, rfl⟩
  · constructor <;> rfl

/-- Witness for C10 on the concrete `c10State` database. -/
theorem c10_witness :
    ∃ badges, (jLogCompletion c10State "c" 50 "").2 =
      Except.ok ((jCompletionPoints (jCurrentStreak c10State 3 50)
          (jCountLogsOnDate c10State 50) : ℤ),
        jCurrentStreak c10State 3 50, badges) ∧
      jCompletionPoints (jCurrentStreak c10State 3 50)
          (jCountLogsOnDate c10State 50) =
        10 + min ((jCurrentStreak c10State 3 50 - 1) * 2) 20 +
          (if 2 ≤ jCountLogsOnDate c10State 50 then 5 else 0) :=
  c10_combo_counts_all_habits.1 c10State "c" 50 "" ⟨3, "c", true⟩
    (by decide) (by decide)

/-! ## C8: duplicate grant inserts (amended) -/

/-- C8 corrected: the counterexample.  In `c8State` a (STREAK_7, habit 1)
grant already exists (awarded on day 14); the `log_completion` call for day
22 re-reaches streak 7 and its grant evaluation attempts to insert a grant
with the same code and habit scope — the attempt is NOT absorbed as a
no-op: a second (STREAK_7, habit 1) award row is inserted, because the
diary's guard only checks (code, habit, award-date). -/
theorem c8_counterexample :
    (dScopedAwards c8State.awards codeStreak7 1).length = 1 ∧
    (dScopedAwards (dLogCompletion c8State 1 22 "").1.awards
        codeStreak7 1).length = 2 :=
  ⟨by decide, by decide⟩

/-- C8 amended: duplicate-grant handling never surfaces an error from
`log_completion`; in `habit_journal` an insert of an existing
(code, habit)-scoped grant is absorbed as a no-op (the swallowed uniqueness
violation), while in `habit_diary` only an insert matching an existing
(code, habit, award-date) triple is skipped — a same-(code, habit) grant on
a different date is inserted as a new row (see the counterexample).  The
four conjuncts: journal no-op absorption; diary same-day no-op absorption;
journal `log_completion` succeeds whenever the habit exists and the date is
not a duplicate, whatever the badge state; diary `log_completion` succeeds
whenever the habit exists. -/
theorem c8_amended_no_op_no_error :
    (∀ (s : JState) (code : String) (x : ℕ),
      jBadgeExists s code (some x) = true →
      jAwardBadge s code (some x) = (s, none)) ∧
    (∀ (s : DState) (hid whenD : ℕ) (nm : String) (a : DAward),
      a ∈ s.awards → a.name = nm → a.habit_id = some hid →
      a.award_date = whenD → dAwardBadge s hid whenD nm = s) ∧
    (∀ (s : JState) (nm : String) (d : ℕ) (note : String) (h : JHabit),
      jFindHabit s nm = some h → jHasLogOnDate s h.id d = false →
      ∃ v, (jLogCompletion s nm d note).2 = Except.ok v) ∧
    (∀ (s : DState) (hid d : ℕ) (note : String) (h : DHabit),
      dFindHabit s hid = some h →
      ∃ v, (dLogCompletion s hid d note).2 = Except.ok v) := by
  refine ⟨?_, ?_, ?_, ?_⟩
  · intro s code x hex
    simp only [jAwardBadge]
    rw [if_pos hex]
  · intro s hid whenD nm a ha h1 h2 h3
    unfold dAwardBadge
    rw [if_pos]
    rw [List.any_eq_true]
    exact ⟨a, ha, by simp [h1, h2, h3]⟩
  · intro s nm d note h hf hdup
    rw [jLogCompletion_eq_of_ok hf hdup]
    exact ⟨_, rfl⟩
  · intro s hid d note h hf
    by_cases hdup : dExistingCount s h.id d = 0
    · rw [dLogCompletion_eq_of_ok hf hdup]
      exact ⟨_, rfl⟩
    · rw [dLogCompletion_eq_of_dup hf hdup]
      exact ⟨0, rfl⟩

/-- Witness for C8 on one-row databases. -/
theorem c8_witness :
    jAwardBadge ⟨[], [], [⟨"X", some 1, 0⟩]⟩ "X" (some 1) =
      (⟨[], [], [⟨"X", some 1, 0⟩]⟩, none) ∧
    dAwardBadge ⟨[], [], [⟨"X", some 1, 20, 0, none, none⟩]⟩ 1 20 "X" =
      ⟨[], [], [⟨"X", some 1, 20, 0, none, none⟩]⟩ :=
  ⟨c8_amended_no_op_no_error.1 _ "X" 1 (by decide),
   c8_amended_no_op_no_error.2.1 _ 1 20 "X" ⟨"X", some 1, 20, 0, none, none⟩
     (by decide) rfl rfl rfl⟩

/-! ## C1: grant-uniqueness invariants (amended) -/

theorem jScopedCount_append (l : List JBadge) (b : JBadge) (code : String)
    (x : ℕ) :
    jScopedCount (l ++ [b]) code x =
      jScopedCount l code x +
        (if b.code = code ∧ b.habit_id = some x then 1 else 0) := by
  unfold jScopedCount
  rw [List.filter_append, List.length_append]
  congr 1
  by_cases hb : b.code = code ∧ b.habit_id = some x
  · rw [if_pos hb]
    simp [List.filter, hb.1, hb.2]
  · rw [if_neg hb]
    have hpred : (b.code == code && b.habit_id == some x) = false := by
      rw [Bool.eq_false_iff]
      intro hcontra
      exact hb (by simpa [Bool.and_eq_true, beq_iff_eq] using hcontra)
    simp [List.filter, hpred]

theorem jScopedCount_zero_of_not_exists {s : JState} {code : String} {x : ℕ}
    (h : jBadgeExists s code (some x) = false) :
    jScopedCount s.badges code x = 0 := by
  unfold jBadgeExists at h
  unfold jScopedCount
  rw [List.length_eq_zero, List.filter_eq_nil_iff]
  intro a ha
  rw [List.any_eq_false] at h
  exact h a ha

theorem jAwardBadge_scoped_le (s : JState) (code : String) (hid : Option ℕ)
    (hP : ∀ c x, jScopedCount s.badges c x ≤ 1) :
    ∀ c x, jScopedCount (jAwardBadge s code hid).1.badges c x ≤ 1 := by
  unfold jAwardBadge
  cases hid with
  | none =>
      intro c x
      dsimp only
      rw [jScopedCount_append]
      rw [if_neg (by simp : ¬((⟨code, none, jTotalPoints s⟩ : JBadge).code = c ∧
        (⟨code, none, jTotalPoints s⟩ : JBadge).habit_id = some x))]
      rw [add_zero]
      exact hP c x
  | some y =>
      dsimp only
      by_cases hex : jBadgeExists s code (some y) = true
      · rw [if_pos hex]
        exact hP
      · rw [Bool.not_eq_true] at hex
        rw [if_neg (by rw [hex]; exact Bool.false_ne_true)]
        intro c x
        dsimp only
        rw [jScopedCount_append]
        by_cases hcx : (⟨code, some y, jTotalPoints s⟩ : JBadge).code = c ∧
            (⟨code, some y, jTotalPoints s⟩ : JBadge).habit_id = some x
        · rw [if_pos hcx]
          obtain ⟨h1, h2⟩ := hcx
          simp only at h1 h2
          have hy : y = x := by injection h2
          subst h1
          subst hy
          rw [jScopedCount_zero_of_not_exists hex]
        · rw [if_neg hcx, add_zero]
          exact hP c x

theorem jAwardThreshold_scoped_le (total : ℤ) (s : JState) (t : ℕ)
    (hP : ∀ c x, jScopedCount s.badges c x ≤ 1) :
    ∀ c x, jScopedCount (jAwardThreshold total s t).1.badges c x ≤ 1 := by
  unfold jAwardThreshold
  split_ifs with hc
  · exact jAwardBadge_scoped_le s _ none hP
  · exact hP

theorem jThresholdFold_scoped_le (l : List ℕ) (total : ℤ) :
    ∀ (s : JState) (acc : List String),
      (∀ c x, jScopedCount s.badges c x ≤ 1) →
      ∀ c x, jScopedCount ((l.foldl (fun acc t =>
        let r := jAwardThreshold total acc.1 t
        (r.1, acc.2 ++ r.2.toList)) (s, acc)).1.badges) c x ≤ 1 := by
  induction l with
  | nil => intro s acc hP; exact hP
  | cons t ts ih =>
      intro s acc hP
      simp only [List.foldl_cons]
      exact ih _ _ (jAwardThreshold_scoped_le total s t hP)

theorem jMaybeAwardThresholds_scoped_le (s : JState)
    (hP : ∀ c x, jScopedCount s.badges c x ≤ 1) :
    ∀ c x, jScopedCount (jMaybeAwardThresholds s).1.badges c x ≤ 1 :=
  jThresholdFold_scoped_le jPointsThresholds (jTotalPoints s) s [] hP

theorem jMaybeFirstStep_scoped_le (s : JState)
    (hP : ∀ c x, jScopedCount s.badges c x ≤ 1) :
    ∀ c x, jScopedCount (jMaybeFirstStep s).1.badges c x ≤ 1 := by
  unfold jMaybeFirstStep
  split_ifs with hc
  · dsimp only
    exact jAwardBadge_scoped_le s firstStepCode none hP
  · exact hP

theorem jMaybeStreakBadge_scoped_le (s : JState) (hid streak : ℕ)
    (hP : ∀ c x, jScopedCount s.badges c x ≤ 1) :
    ∀ c x, jScopedCount (jMaybeStreakBadge s hid streak).1.badges c x ≤ 1 := by
  unfold jMaybeStreakBadge
  split_ifs with hc
  · dsimp only
    exact jAwardBadge_scoped_le s (streakCodeOf streak) (some hid) hP
  · exact hP

theorem jLogCompletion_scoped_le (s : JState) (nm : String) (d : ℕ)
    (note : String) (hP : ∀ c x, jScopedCount s.badges c x ≤ 1) :
    ∀ c x, jScopedCount (jLogCompletion s nm d note).1.badges c x ≤ 1 := by
  cases hf : jFindHabit s nm with
  | none =>
      have heq : jLogCompletion s nm d note =
          (s, Except.error habitNotFoundMsg) := by
        unfold jLogCompletion
        rw [hf]
      rw [heq]
      exact hP
  | some habit =>
      by_cases hdup : jHasLogOnDate s habit.id d = true
      · rw [jLogCompletion_eq_of_dup hf hdup]
        exact hP
      · simp only [Bool.not_eq_true] at hdup
        rw [jLogCompletion_eq_of_ok hf hdup]
        dsimp only
        exact jMaybeAwardThresholds_scoped_le _
          (jMaybeStreakBadge_scoped_le _ _ _
            (jMaybeFirstStep_scoped_le _ hP))

theorem jReach_scoped_le {s : JState} (h : JReach s) :
    ∀ c x, jScopedCount s.badges c x ≤ 1 := by
  induction h with
  | refl => intro c x; simp [jScopedCount, jInit]
  | tail hreach hstep ih =>
      cases hstep with
      | add hid n => exact ih
      | log n d note hd => exact jLogCompletion_scoped_le _ n d note ih

/-! Weekly-consistency machinery for the diary (shared by C1 and C6). -/

theorem weekStart_mem {d : ℕ} (hd : 1 ≤ d) :
    weekStart d ≤ d ∧ d ≤ weekStart d + 6 := by
  unfold weekStart
  omega

theorem weekStart_eq_iff_mem {d x : ℕ} (hd : 1 ≤ d) (hx : 1 ≤ x) :
    weekStart x = weekStart d ↔ weekStart d ≤ x ∧ x ≤ weekStart d + 6 := by
  unfold weekStart
  omega

theorem dWeeklyAwards_append (l : List DAward) (a : DAward) (hid ws : ℕ) :
    dWeeklyAwards (l ++ [a]) hid ws =
      dWeeklyAwards l hid ws ++
        (if a.name = codeWeekly ∧ a.habit_id = some hid ∧
            weekStart a.award_date = ws then [a] else []) := by
  unfold dWeeklyAwards
  rw [List.filter_append]
  congr 1
  split_ifs with hc
  · simp [List.filter, hc.1, hc.2.1, hc.2.2]
  · have hpred : (a.name == codeWeekly && a.habit_id == some hid &&
        (weekStart a.award_date == ws)) = false := by
      rw [Bool.eq_false_iff]
      intro hcontra
      exact hc (by simpa [Bool.and_eq_true, beq_iff_eq, and_assoc]
        using hcontra)
    simp [List.filter, hpred]

/-- If `_award_weekly_consistency_bonus_if_eligible`'s `already_awarded`
query comes back empty, there is no WEEKLY_CONSISTENCY award at all for
this habit in the ISO week of `d` (award dates being valid dates). -/
theorem dWeeklyAlready_false_no_award {s : DState} {hid d : ℕ} (hd : 1 ≤ d)
    (hdates : ∀ a ∈ s.awards, 1 ≤ a.award_date)
    (h : dWeeklyAlready s hid d = false) :
    dWeeklyAwards s.awards hid (weekStart d) = [] := by
  unfold dWeeklyAlready at h
  rw [List.any_eq_false] at h
  unfold dWeeklyAwards
  rw [List.filter_eq_nil_iff]
  intro a ha hpred
  simp only [Bool.and_eq_true, beq_iff_eq] at hpred
  obtain ⟨⟨h1, h2⟩, h3⟩ := hpred
  have hmem := (weekStart_eq_iff_mem hd (hdates a ha)).mp h3
  exact h a ha (by
    simp only [Bool.and_eq_true, beq_iff_eq, decide_eq_true_eq]
    exact ⟨⟨⟨h1, h2⟩, hmem.1⟩, hmem.2⟩)

/-- The converse: a WEEKLY_CONSISTENCY award in the `weekStart`-class of `d`
makes the `already_awarded` query non-empty. -/
theorem dWeeklyAlready_true_of_award {s : DState} {hid d : ℕ} (hd : 1 ≤ d)
    (hdates : ∀ a ∈ s.awards, 1 ≤ a.award_date)
    (h : dWeeklyAwards s.awards hid (weekStart d) ≠ []) :
    dWeeklyAlready s hid d = true := by
  rcases List.exists_mem_of_ne_nil _ h with ⟨a, ha⟩
  unfold dWeeklyAwards at ha
  rw [List.mem_filter] at ha
  obtain ⟨hmem, hpred⟩ := ha
  simp only [Bool.and_eq_true, beq_iff_eq] at hpred
  obtain ⟨⟨h1, h2⟩, h3⟩ := hpred
  have hb := (weekStart_eq_iff_mem hd (hdates a hmem)).mp h3
  unfold dWeeklyAlready
  rw [List.any_eq_true]
  exact ⟨a, hmem, by
    simp only [Bool.and_eq_true, beq_iff_eq, decide_eq_true_eq]
    exact ⟨⟨⟨h1, h2⟩, hb.1⟩, hb.2⟩⟩

theorem dAwardWeekly_weekly (s : DState) (h : DHabit) (d : ℕ) (hd : 1 ≤ d)
    (hinv : (∀ a ∈ s.awards, 1 ≤ a.award_date) ∧
      ∀ hid ws, (dWeeklyAwards s.awards hid ws).length ≤ 1) :
    (∀ a ∈ (dAwardWeekly s h d).1.awards, 1 ≤ a.award_date) ∧
    ∀ hid ws,
      (dWeeklyAwards (dAwardWeekly s h d).1.awards hid ws).length ≤ 1 := by
  obtain ⟨hdates, hcnt⟩ := hinv
  unfold dAwardWeekly
  split_ifs with hc
  · rw [Bool.and_eq_true] at hc
    have hnot : dWeeklyAlready s h.id d = false := by
      have := hc.2
      rwa [Bool.not_eq_eq_eq_not, Bool.not_true] at this
    constructor
    · intro a ha
      dsimp only at ha
      rw [List.mem_append] at ha
      rcases ha with ha | ha
      · exact hdates a ha
      · rw [List.mem_singleton] at ha
        subst ha
        exact hd
    · intro hid ws
      dsimp only
      rw [dWeeklyAwards_append]
      split_ifs with hw
      · obtain ⟨hw1, hw2, hw3⟩ := hw
        simp only at hw2 hw3
        have hhid : h.id = hid := by injection hw2
        subst hhid
        subst hw3
        rw [dWeeklyAlready_false_no_award hd hdates hnot]
        simp
      · rw [List.length_append, List.length_nil, add_zero]
        exact hcnt hid ws
  · exact ⟨hdates, hcnt⟩

theorem dAwardBadge_weekly (s : DState) (hid0 whenD : ℕ) (nm : String)
    (hnm : nm ≠ codeWeekly) (hwd : 1 ≤ whenD)
    (hinv : (∀ a ∈ s.awards, 1 ≤ a.award_date) ∧
      ∀ hid ws, (dWeeklyAwards s.awards hid ws).length ≤ 1) :
    (∀ a ∈ (dAwardBadge s hid0 whenD nm).awards, 1 ≤ a.award_date) ∧
    ∀ hid ws,
      (dWeeklyAwards (dAwardBadge s hid0 whenD nm).awards hid ws).length ≤
        1 := by
  obtain ⟨hdates, hcnt⟩ := hinv
  unfold dAwardBadge
  split_ifs with hc
  · exact ⟨hdates, hcnt⟩
  · constructor
    · intro a ha
      dsimp only at ha
      rw [List.mem_append] at ha
      rcases ha with ha | ha
      · exact hdates a ha
      · rw [List.mem_singleton] at ha
        subst ha
        exact hwd
    · intro hid ws
      dsimp only
      rw [dWeeklyAwards_append]
      rw [if_neg (fun hcon => hnm hcon.1)]
      rw [List.append_nil]
      exact hcnt hid ws

theorem dCondBadge_weekly (s : DState) (b : Bool) (hid0 whenD : ℕ)
    (nm : String) (hnm : nm ≠ codeWeekly) (hwd : 1 ≤ whenD)
    (hinv : (∀ a ∈ s.awards, 1 ≤ a.award_date) ∧
      ∀ hid ws, (dWeeklyAwards s.awards hid ws).length ≤ 1) :
    (∀ a ∈ (if b then dAwardBadge s hid0 whenD nm else s).awards,
      1 ≤ a.award_date) ∧
    ∀ hid ws,
      (dWeeklyAwards (if b then dAwardBadge s hid0 whenD nm else s).awards
        hid ws).length ≤ 1 := by
  cases b with
  | false => simpa using hinv
  | true => simpa using dAwardBadge_weekly s hid0 whenD nm hnm hwd hinv

theorem dCheckBadges_weekly (s : DState) (h : DHabit) (d : ℕ) (hd : 1 ≤ d)
    (hinv : (∀ a ∈ s.awards, 1 ≤ a.award_date) ∧
      ∀ hid ws, (dWeeklyAwards s.awards hid ws).length ≤ 1) :
    (∀ a ∈ (dCheckBadges s h d).1.awards, 1 ≤ a.award_date) ∧
    ∀ hid ws,
      (dWeeklyAwards (dCheckBadges s h d).1.awards hid ws).length ≤ 1 := by
  simp only [dCheckBadges]
  exact dCondBadge_weekly _ _ _ _ _ (by decide) hd
    (dCondBadge_weekly _ _ _ _ _ (by decide) hd
      (dCondBadge_weekly _ _ _ _ _ (by decide) hd
        (dCondBadge_weekly _ _ _ _ _ (by decide) hd hinv)))

theorem dLogCompletion_weekly (s : DState) (hid d : ℕ) (note : String)
    (hd : 1 ≤ d)
    (hinv : (∀ a ∈ s.awards, 1 ≤ a.award_date) ∧
      ∀ hid ws, (dWeeklyAwards s.awards hid ws).length ≤ 1) :
    (∀ a ∈ (dLogCompletion s hid d note).1.awards, 1 ≤ a.award_date) ∧
    ∀ h0 ws,
      (dWeeklyAwards (dLogCompletion s hid d note).1.awards h0 ws).length ≤
        1 := by
  cases hf : dFindHabit s hid with
  | none =>
      have heq : dLogCompletion s hid d note =
          (s, Except.error habitNotFoundMsg) := by
        unfold dLogCompletion
        rw [hf]
      rw [heq]
      exact hinv
  | some habit =>
      by_cases hdup : dExistingCount s habit.id d = 0
      · rw [dLogCompletion_eq_of_ok hf hdup]
        dsimp only
        exact dCheckBadges_weekly _ habit d hd
          (dAwardWeekly_weekly _ habit d hd hinv)
      · rw [dLogCompletion_eq_of_dup hf hdup]
        exact hinv

theorem dReach_weekly {s : DState} (h : DReach s) :
    (∀ a ∈ s.awards, 1 ≤ a.award_date) ∧
    ∀ hid ws, (dWeeklyAwards s.awards hid ws).length ≤ 1 := by
  induction h with
  | refl =>
      constructor
      · intro a ha
        simp [dInit] at ha
      · intro hid ws
        simp [dWeeklyAwards, dInit]
  | tail hreach hstep ih =>
      cases hstep with
      | add hid n difficulty freq => exact ih
      | log hid d note hd =>
          exact dLogCompletion_weekly _ hid d note (by omega) ih

theorem dWeeklyAlready_true_ne_nil {s : DState} {hid d : ℕ} (hd : 1 ≤ d)
    (hdates : ∀ a ∈ s.awards, 1 ≤ a.award_date)
    (h : dWeeklyAlready s hid d = true) :
    dWeeklyAwards s.awards hid (weekStart d) ≠ [] := by
  unfold dWeeklyAlready at h
  rw [List.any_eq_true] at h
  obtain ⟨a, hmem, hpred⟩ := h
  simp only [Bool.and_eq_true, beq_iff_eq, decide_eq_true_eq] at hpred
  obtain ⟨⟨⟨h1, h2⟩, h3⟩, h4⟩ := hpred
  have hws : weekStart a.award_date = weekStart d :=
    (weekStart_eq_iff_mem hd (hdates a hmem)).mpr ⟨h3, h4⟩
  intro hnil
  have : a ∈ dWeeklyAwards s.awards hid (weekStart d) := by
    unfold dWeeklyAwards
    rw [List.mem_filter]
    exact ⟨hmem, by simp [h1, h2, hws]⟩
  rw [hnil] at this
  exact List.not_mem_nil a this

theorem dAwardBadge_weeklyAwards (s : DState) (hid0 whenD : ℕ) (nm : String)
    (hnm : nm ≠ codeWeekly) (hid ws : ℕ) :
    dWeeklyAwards (dAwardBadge s hid0 whenD nm).awards hid ws =
      dWeeklyAwards s.awards hid ws := by
  unfold dAwardBadge
  split_ifs with hc
  · rfl
  · dsimp only
    rw [dWeeklyAwards_append, if_neg (fun hcon => hnm hcon.1),
      List.append_nil]

theorem dCondBadge_weeklyAwards (s : DState) (b : Bool) (hid0 whenD : ℕ)
    (nm : String) (hnm : nm ≠ codeWeekly) (hid ws : ℕ) :
    dWeeklyAwards (if b then dAwardBadge s hid0 whenD nm else s).awards
        hid ws = dWeeklyAwards s.awards hid ws := by
  cases b with
  | false => rfl
  | true => simpa using dAwardBadge_weeklyAwards s hid0 whenD nm hnm hid ws

/-- `_check_and_award_badges` never touches WEEKLY_CONSISTENCY awards. -/
theorem dCheckBadges_weeklyAwards (s : DState) (h : DHabit) (d hid ws : ℕ) :
    dWeeklyAwards (dCheckBadges s h d).1.awards hid ws =
      dWeeklyAwards s.awards hid ws := by
  simp only [dCheckBadges]
  rw [dCondBadge_weeklyAwards _ _ _ _ _ (by decide),
    dCondBadge_weeklyAwards _ _ _ _ _ (by decide),
    dCondBadge_weeklyAwards _ _ _ _ _ (by decide),
    dCondBadge_weeklyAwards _ _ _ _ _ (by decide)]

/-- C1 corrected: the counterexample.  Under `habit_diary`, the sequence of
`log_completion` calls of `c1State` (days 8..14, a gap, then days 16..22,
all committed through the engine itself) grants the (STREAK_7, habit 1)
badge twice — the diary deduplicates grants only per (code, habit,
award-date), so a streak rebuilt to exactly 7 earns the same badge again. -/
theorem c1_counterexample :
    (dScopedAwards c1State.awards codeStreak7 1).length = 2 := by decide

/-- C1 amended: in `habit_journal`, a badge with a given code and a given
(non-NULL) habit scope is created at most once over any reachable history
(the embedded `UNIQUE(code, habit_id)` check); in `habit_diary`, the
habit-scoped WEEKLY_CONSISTENCY bonus is granted at most once per
(habit, ISO week) over any reachable history — but the diary's other badges
are only deduplicated per (code, habit, award-date), see the
counterexample.  Replaying a history never creates duplicates of these. -/
theorem c1_per_scope_grants_at_most_once :
    (∀ s, JReach s → ∀ code x, jScopedCount s.badges code x ≤ 1) ∧
    (∀ s, DReach s →
      ∀ hid ws, (dWeeklyAwards s.awards hid ws).length ≤ 1) :=
  ⟨fun _ h => jReach_scoped_le h, fun _ h => (dReach_weekly h).2⟩

/-- Witness for C1 on small explicitly-reachable databases. -/
theorem c1_witness :
    jScopedCount ((jLogCompletion (jAddHabit jInit 1 "h") "h" 8 "").1).badges
        codeStreak7 1 ≤ 1 ∧
    (dWeeklyAwards ((dLogCompletion (dAddHabit dInit 1 "w" 1 1) 1 8
        "").1).awards 1 (weekStart 8)).length ≤ 1 :=
  ⟨c1_per_scope_grants_at_most_once.1 _
      (Relation.ReflTransGen.tail
        (Relation.ReflTransGen.single (JStep.add jInit 1 "h"))
        (JStep.log (jAddHabit jInit 1 "h") "h" 8 "" (by decide)))
      codeStreak7 1,
   c1_per_scope_grants_at_most_once.2 _
      (Relation.ReflTransGen.tail
        (Relation.ReflTransGen.single (DStep.add dInit 1 "w" 1 1))
        (DStep.log (dAddHabit dInit 1 "w" 1 1) 1 8 "" (by decide)))
      1 (weekStart 8)⟩

/-! ## C6: the weekly consistency bonus -/

/-- C6: on every committed (non-duplicate) completion over a reachable diary
database, the fixed 20-point WEEKLY_CONSISTENCY bonus for the ISO week of
the event date is granted if and only if the number of point-bearing
completions of the habit inside that week — evaluated after the new
completion is persisted (`dPostInsert`) — meets or exceeds the habit's
target frequency and no such bonus exists yet for this (habit, week); the
new grant records the covering week's Monday and Sunday as its period
bounds.  When the condition fails, the (habit, week)'s WEEKLY_CONSISTENCY
grants are left exactly as they were. -/
theorem c6_weekly_bonus_iff (s : DState) (hid d : ℕ) (note : String)
    (h : DHabit) (hreach : DReach s) (hd : 1 ≤ d)
    (hf : dFindHabit s hid = some h) (hdup : dExistingCount s h.id d = 0) :
    (h.frequency_per_week ≤ dWeekCount (dPostInsert s h d note) h.id d ∧
        dWeeklyAwards s.awards h.id (weekStart d) = [] →
      dWeeklyAwards (dLogCompletion s hid d note).1.awards h.id
          (weekStart d) =
        [⟨codeWeekly, some h.id, d, WEEKLY_CONSISTENCY_BONUS,
          some (weekStart d), some (weekStart d + 6)⟩]) ∧
    (¬(h.frequency_per_week ≤ dWeekCount (dPostInsert s h d note) h.id d ∧
        dWeeklyAwards s.awards h.id (weekStart d) = []) →
      dWeeklyAwards (dLogCompletion s hid d note).1.awards h.id
          (weekStart d) = dWeeklyAwards s.awards h.id (weekStart d)) := by
  obtain ⟨hdates, hcnt⟩ := dReach_weekly hreach
  have halready : dWeeklyAlready (dPostInsert s h d note) h.id d =
      dWeeklyAlready s h.id d := rfl
  rw [dLogCompletion_eq_of_ok hf hdup]
  dsimp only
  rw [dCheckBadges_weeklyAwards]
  unfold dAwardWeekly
  split_ifs with hc
  · rw [Bool.and_eq_true, decide_eq_true_eq] at hc
    have hnot : dWeeklyAlready s h.id d = false := by
      have h2 := hc.2
      rw [halready, Bool.not_eq_eq_eq_not, Bool.not_true] at h2
      exact h2
    have hnil : dWeeklyAwards s.awards h.id (weekStart d) = [] :=
      dWeeklyAlready_false_no_award hd hdates hnot
    constructor
    · intro _
      dsimp only
      rw [dWeeklyAwards_append]
      rw [if_pos ⟨rfl, rfl, rfl⟩]
      rw [show dWeeklyAwards (dPostInsert s h d note).awards h.id
          (weekStart d) = dWeeklyAwards s.awards h.id (weekStart d) from rfl]
      rw [hnil, List.nil_append]
    · intro hncond
      exact absurd ⟨hc.1, hnil⟩ hncond
  · constructor
    · intro hcond
      exfalso
      rw [Bool.and_eq_true, not_and_or] at hc
      rcases hc with hc | hc
      · rw [decide_eq_true_eq] at hc
        exact hc hcond.1
      · rw [Bool.not_eq_true, Bool.not_eq_eq_eq_not, Bool.not_false,
          halready] at hc
        exact dWeeklyAlready_true_ne_nil hd hdates hc hcond.2
    · intro _
      rfl

/-- Witness for C6: a habit with weekly target 2 and a committed completion
on Monday (ordinal 15); logging Tuesday (ordinal 16) reaches the target
inside the same ISO week [15, 21] and grants the 20-point bonus once. -/
theorem c6_witness :
    dWeeklyAwards
        ((dLogCompletion
            ((dLogCompletion (dAddHabit dInit 1 "w" 1 2) 1 15 "").1)
            1 16 "").1).awards 1 (weekStart 16) =
      [⟨codeWeekly, some 1, 16, WEEKLY_CONSISTENCY_BONUS, some 15,
        some 21⟩] := by
  have hreach :
      DReach ((dLogCompletion (dAddHabit dInit 1 "w" 1 2) 1 15 "").1) :=
    Relation.ReflTransGen.tail
      (Relation.ReflTransGen.single (DStep.add dInit 1 "w" 1 2))
      (DStep.log (dAddHabit dInit 1 "w" 1 2) 1 15 "" (by decide))
  exact
    (c6_weekly_bonus_iff
        ((dLogCompletion (dAddHabit dInit 1 "w" 1 2) 1 15 "").1)
        1 16 "" ⟨1, "w", 1, 2⟩ hreach (by decide) (by decide)
        (by decide)).1 (by decide)

/-! ## C5: STREAK_7 exactly on the 7th consecutive day -/

theorem find?_append_of_none {α : Type} {p : α → Bool} {l1 l2 : List α}
    (h : l1.find? p = none) : (l1 ++ l2).find? p = l2.find? p := by
  induction l1 with
  | nil => rfl
  | cons a l ih =>
      by_cases hpa : p a = true
      · rw [List.find?_cons_of_pos _ hpa] at h
        exact Option.noConfusion h
      · rw [List.find?_cons_of_neg _ hpa] at h
        rw [List.cons_append, List.find?_cons_of_neg _ hpa]
        exact ih h

theorem filter_filter_of_imp {α : Type} (p k : α → Bool)
    (h : ∀ r, p r = true → k r = true) (l : List α) :
    (l.filter k).filter p = l.filter p := by
  induction l with
  | nil => rfl
  | cons a l ih =>
      by_cases hk : k a = true
      · rw [List.filter_cons, if_pos hk]
        by_cases hp : p a = true
        · rw [List.filter_cons, if_pos hp, List.filter_cons, if_pos hp, ih]
        · rw [List.filter_cons, if_neg hp, List.filter_cons, if_neg hp, ih]
      · have hp : ¬p a = true := fun hp => hk (h a hp)
        rw [List.filter_cons, if_neg hk, List.filter_cons, if_neg hp, ih]

theorem contains_iff_mem_nat (l : List ℕ) (x : ℕ) :
    l.contains x = true ↔ x ∈ l := by simp

theorem c5J_find_none (hid d0 n t : ℕ) (ht : d0 + n ≤ t) :
    ((List.range n).map (c5JRow hid d0)).find?
      (fun r => r.habit_id == hid && r.date == t) = none := by
  rw [List.find?_eq_none]
  intro r hr
  rw [List.mem_map] at hr
  obtain ⟨k, hk, rfl⟩ := hr
  rw [List.mem_range] at hk
  simp only [c5JRow, Bool.and_eq_true, beq_iff_eq, not_and]
  intro _
  omega

theorem jBadgeExists_false_of_scoped_zero {s : JState} {code : String} {x : ℕ}
    (h : jScopedCount s.badges code x = 0) :
    jBadgeExists s code (some x) = false := by
  unfold jScopedCount at h
  rw [List.length_eq_zero] at h
  unfold jBadgeExists
  rw [List.any_eq_false]
  intro a ha hpred
  have hmem : a ∈ s.badges.filter
      (fun b => b.code == code && b.habit_id == some x) :=
    List.mem_filter.mpr ⟨ha, hpred⟩
  rw [h] at hmem
  exact List.not_mem_nil a hmem

theorem jAwardBadge_scoped_eq_of_ne (s : JState) (code : String)
    (hidO : Option ℕ) (c : String) (x : ℕ)
    (h : ¬(code = c ∧ hidO = some x)) :
    jScopedCount (jAwardBadge s code hidO).1.badges c x =
      jScopedCount s.badges c x := by
  unfold jAwardBadge
  cases hidO with
  | some y =>
      dsimp only
      by_cases hex : jBadgeExists s code (some y) = true
      · rw [if_pos hex]
      · rw [Bool.not_eq_true] at hex
        rw [if_neg (by rw [hex]; exact Bool.false_ne_true)]
        dsimp only
        rw [jScopedCount_append, if_neg (by simpa using h), add_zero]
  | none =>
      dsimp only
      rw [jScopedCount_append, if_neg (by simp), add_zero]

theorem jAwardThreshold_scoped_eq (total : ℤ) (s : JState) (t : ℕ)
    (c : String) (x : ℕ) :
    jScopedCount (jAwardThreshold total s t).1.badges c x =
      jScopedCount s.badges c x := by
  unfold jAwardThreshold
  split_ifs with hc
  · exact jAwardBadge_scoped_eq_of_ne s _ none c x (by simp)
  · rfl

theorem jThresholdFold_scoped_eq (l : List ℕ) (total : ℤ) :
    ∀ (s : JState) (acc : List String) (c : String) (x : ℕ),
      jScopedCount ((l.foldl (fun acc t =>
        let r := jAwardThreshold total acc.1 t
        (r.1, acc.2 ++ r.2.toList)) (s, acc)).1.badges) c x =
      jScopedCount s.badges c x := by
  induction l with
  | nil => intro s acc c x; rfl
  | cons t ts ih =>
      intro s acc c x
      simp only [List.foldl_cons]
      rw [ih (jAwardThreshold total s t).1
        (acc ++ ((jAwardThreshold total s t).2).toList) c x]
      exact jAwardThreshold_scoped_eq total s t c x

theorem jMaybeAwardThresholds_scoped_eq (s : JState) (c : String) (x : ℕ) :
    jScopedCount (jMaybeAwardThresholds s).1.badges c x =
      jScopedCount s.badges c x := by
  unfold jMaybeAwardThresholds
  exact jThresholdFold_scoped_eq jPointsThresholds (jTotalPoints s) s [] c x

theorem jMaybeFirstStep_scoped_eq (s : JState) (c : String) (x : ℕ) :
    jScopedCount (jMaybeFirstStep s).1.badges c x =
      jScopedCount s.badges c x := by
  unfold jMaybeFirstStep
  split_ifs with hc
  · dsimp only
    exact jAwardBadge_scoped_eq_of_ne s firstStepCode none c x (by simp)
  · rfl

/-- Full characterisation of a journal run of `n` consecutive-day
completions of one fresh habit: the habit table, the exact log rows (with
their stored streak snapshots `1, 2, ...`), and the number of
(STREAK_7, habit) badges — 0 before the 7th call, 1 from it on. -/
theorem c5J_spec (hid d0 : ℕ) (nm : String) (hd0 : 2 ≤ d0) : ∀ n : ℕ,
    (jRun (jAddHabit jInit hid nm) nm d0 n).habits = [⟨hid, nm, true⟩] ∧
    (jRun (jAddHabit jInit hid nm) nm d0 n).logs =
      (List.range n).map (c5JRow hid d0) ∧
    jScopedCount (jRun (jAddHabit jInit hid nm) nm d0 n).badges codeStreak7
      hid = if 7 ≤ n then 1 else 0 := by
  intro n
  induction n with
  | zero => exact ⟨rfl, rfl, rfl⟩
  | succ n ih =>
      obtain ⟨ha, hl, hb⟩ := ih
      simp only [jRun]
      have hf : jFindHabit (jRun (jAddHabit jInit hid nm) nm d0 n) nm =
          some ⟨hid, nm, true⟩ := by
        unfold jFindHabit
        rw [ha]
        exact List.find?_cons_of_pos _ (by simp)
      have hnodup : jHasLogOnDate (jRun (jAddHabit jInit hid nm) nm d0 n) hid
          (d0 + n) = false := by
        unfold jHasLogOnDate
        rw [hl, c5J_find_none hid d0 n (d0 + n) le_rfl]
        rfl
      have hprev : jPrevDayStreak (jRun (jAddHabit jInit hid nm) nm d0 n) hid
          (d0 + n) = n := by
        by_cases hn : n = 0
        · subst hn
          unfold jPrevDayStreak
          rw [hl]
          rfl
        · obtain ⟨m, rfl⟩ : ∃ m, n = m + 1 := ⟨n - 1, by omega⟩
          unfold jPrevDayStreak
          rw [hl]
          have ht : d0 + (m + 1) - 1 = d0 + m := by omega
          rw [ht, List.range_succ, List.map_append,
            find?_append_of_none (c5J_find_none hid d0 m (d0 + m) le_rfl),
            List.map_singleton, List.find?_cons_of_pos _ (by simp [c5JRow])]
          rfl
      have hstreak : jCurrentStreak (jRun (jAddHabit jInit hid nm) nm d0 n)
          hid (d0 + n) = n + 1 := by
        unfold jCurrentStreak
        rw [hprev]
        by_cases hn : 0 < n
        · rw [if_pos hn]
        · rw [if_neg hn]
          omega
      have hcnt : jCountLogsOnDate (jRun (jAddHabit jInit hid nm) nm d0 n)
          (d0 + n) = 0 := by
        unfold jCountLogsOnDate
        rw [hl, List.length_eq_zero, List.filter_eq_nil_iff]
        intro r hr
        rw [List.mem_map] at hr
        obtain ⟨k, hk, rfl⟩ := hr
        rw [List.mem_range] at hk
        simp only [c5JRow, beq_iff_eq]
        omega
      rw [jLogCompletion_eq_of_ok hf hnodup]
      dsimp only
      refine ⟨?_, ?_, ?_⟩
      · rw [(jMaybeAwardThresholds_frame _).1, (jMaybeStreakBadge_frame _ _ _).1,
          (jMaybeFirstStep_frame _).1]
        exact ha
      · rw [(jMaybeAwardThresholds_frame _).2.1,
          (jMaybeStreakBadge_frame _ _ _).2.1, (jMaybeFirstStep_frame _).2.1]
        unfold jPostInsert
        dsimp only
        rw [hstreak, hcnt, hl, List.range_succ, List.map_append]
        rfl
      · rw [jMaybeAwardThresholds_scoped_eq, hstreak]
        have hBase : jScopedCount
            (jMaybeFirstStep (jPostInsert
              (jRun (jAddHabit jInit hid nm) nm d0 n) ⟨hid, nm, true⟩
              (d0 + n) "")).1.badges codeStreak7 hid =
            if 7 ≤ n then 1 else 0 := by
          rw [jMaybeFirstStep_scoped_eq]
          exact hb
        by_cases h6 : n = 6
        · subst h6
          simp only [jMaybeStreakBadge]
          rw [if_pos (by decide)]
          dsimp only
          rw [show streakCodeOf (6 + 1) = codeStreak7 from by decide]
          have hex : jBadgeExists (jMaybeFirstStep (jPostInsert
              (jRun (jAddHabit jInit hid nm) nm d0 6) ⟨hid, nm, true⟩
              (d0 + 6) "")).1 codeStreak7 (some hid) = false :=
            jBadgeExists_false_of_scoped_zero (by simpa using hBase)
          unfold jAwardBadge
          dsimp only
          rw [if_neg (by rw [hex]; exact Bool.false_ne_true)]
          dsimp only
          rw [jScopedCount_append, if_pos ⟨rfl, rfl⟩, hBase]
          decide
        · by_cases hmem : n + 1 ∈ jStreakThresholds
          · have hcases : n + 1 = 3 ∨ n + 1 = 7 ∨ n + 1 = 14 ∨ n + 1 = 30 ∨
                n + 1 = 60 ∨ n + 1 = 100 := by
              simpa [jStreakThresholds] using hmem
            have hne : streakCodeOf (n + 1) ≠ codeStreak7 := by
              rcases hcases with h | h | h | h | h | h
              · rw [h]; decide
              · exact absurd (by omega : n = 6) h6
              · rw [h]; decide
              · rw [h]; decide
              · rw [h]; decide
              · rw [h]; decide
            simp only [jMaybeStreakBadge]
            rw [if_pos (by simpa using hmem)]
            dsimp only
            rw [jAwardBadge_scoped_eq_of_ne _ _ _ _ _ (fun hcon => hne hcon.1),
              hBase]
            have h7 : ¬(7 ≤ n) → ¬(7 ≤ n + 1) := by
              intro h7n
              rcases hcases with h | h | h | h | h | h <;> omega
            by_cases h7n : 7 ≤ n
            · rw [if_pos h7n, if_pos (by omega)]
            · rw [if_neg h7n, if_neg (h7 h7n)]
          · have hno : jMaybeStreakBadge (jMaybeFirstStep (jPostInsert
                (jRun (jAddHabit jInit hid nm) nm d0 n) ⟨hid, nm, true⟩
                (d0 + n) "")).1 hid (n + 1) =
                ((jMaybeFirstStep (jPostInsert
                  (jRun (jAddHabit jInit hid nm) nm d0 n) ⟨hid, nm, true⟩
                  (d0 + n) "")).1, []) := by
              simp [jMaybeStreakBadge, hmem]
            rw [hno]
            rw [hBase]
            have hne6 : ¬(7 ≤ n + 1) ∨ 7 ≤ n := by
              by_cases h7n : 7 ≤ n
              · exact Or.inr h7n
              · refine Or.inl ?_
                intro hcon
                exact hmem (by
                  have : n + 1 = 7 := by omega
                  rw [this]
                  decide)
            rcases hne6 with h | h
            · rw [if_neg (by omega : ¬(7 ≤ n)), if_neg h]
            · rw [if_pos h, if_pos (by omega)]

theorem filter_kind_singleton_ne (r : DLog)
    (h : (r.kind == kindCompletion) = false) :
    [r].filter (fun x => x.kind == kindCompletion) = [] := by
  simp [List.filter_cons, h]

theorem dAwardWeekly_kindRows (s : DState) (h : DHabit) (d : ℕ) :
    (dAwardWeekly s h d).1.logs.filter (fun r => r.kind == kindCompletion) =
      s.logs.filter (fun r => r.kind == kindCompletion) := by
  unfold dAwardWeekly
  split_ifs with hc
  · dsimp only
    rw [List.filter_append, filter_kind_singleton_ne _ (by rfl),
      List.append_nil]
  · rfl

theorem dAwardBadge_kindRows (s : DState) (hid whenD : ℕ) (nm0 : String) :
    (dAwardBadge s hid whenD nm0).logs.filter
        (fun r => r.kind == kindCompletion) =
      s.logs.filter (fun r => r.kind == kindCompletion) := by
  unfold dAwardBadge
  split_ifs with hc
  · rfl
  · dsimp only
    rw [List.filter_append, filter_kind_singleton_ne _ (by rfl),
      List.append_nil]

theorem dCondBadge_kindRows (s : DState) (b : Bool) (hid whenD : ℕ)
    (nm0 : String) :
    (if b then dAwardBadge s hid whenD nm0 else s).logs.filter
        (fun r => r.kind == kindCompletion) =
      s.logs.filter (fun r => r.kind == kindCompletion) := by
  cases b with
  | false => rfl
  | true => simpa using dAwardBadge_kindRows s hid whenD nm0

theorem dCheckBadges_kindRows (s : DState) (h : DHabit) (d : ℕ) :
    (dCheckBadges s h d).1.logs.filter (fun r => r.kind == kindCompletion) =
      s.logs.filter (fun r => r.kind == kindCompletion) := by
  simp only [dCheckBadges]
  rw [dCondBadge_kindRows, dCondBadge_kindRows, dCondBadge_kindRows,
    dCondBadge_kindRows]

theorem c5D_existing (s : DState) (hid d0 diff n : ℕ)
    (hl : s.logs.filter (fun r => r.kind == kindCompletion) =
      (List.range n).map (c5DRow hid d0 diff)) :
    dExistingCount s hid (d0 + n) = 0 := by
  unfold dExistingCount
  rw [← filter_filter_of_imp
      (fun r => r.habit_id == hid && r.log_date == d0 + n &&
        r.kind == kindCompletion)
      (fun r => r.kind == kindCompletion)
      (by intro r h; rw [Bool.and_eq_true] at h; exact h.2) s.logs,
    hl, List.length_eq_zero, List.filter_eq_nil_iff]
  intro r hr
  rw [List.mem_map] at hr
  obtain ⟨k, hk, rfl⟩ := hr
  rw [List.mem_range] at hk
  intro hcon
  simp only [c5DRow, Bool.and_eq_true, beq_iff_eq] at hcon
  omega

theorem c5D_dates (s : DState) (hid d0 diff n : ℕ)
    (hl : s.logs.filter (fun r => r.kind == kindCompletion) =
      (List.range n).map (c5DRow hid d0 diff)) (upto : ℕ)
    (hupto : d0 + n ≤ upto + 1) :
    dCompletionDates s hid upto = (List.range n).map (fun k => d0 + k) := by
  unfold dCompletionDates
  rw [← filter_filter_of_imp
      (fun r => r.habit_id == hid && r.kind == kindCompletion &&
        r.completed && decide (r.log_date ≤ upto))
      (fun r => r.kind == kindCompletion)
      (by intro r h; simp only [Bool.and_eq_true] at h; exact h.1.1.2) s.logs,
    hl]
  have hfil : ((List.range n).map (c5DRow hid d0 diff)).filter
      (fun r => r.habit_id == hid && r.kind == kindCompletion &&
        r.completed && decide (r.log_date ≤ upto)) =
      (List.range n).map (c5DRow hid d0 diff) := by
    rw [List.filter_eq_self]
    intro r hr
    rw [List.mem_map] at hr
    obtain ⟨k, hk, rfl⟩ := hr
    rw [List.mem_range] at hk
    simp [c5DRow]
    omega
  rw [hfil, List.map_map]
  apply List.map_congr_left
  intro k _
  rfl

theorem dStreakWalk_interval (dates : List ℕ) (d0 : ℕ) (hd0 : 1 ≤ d0)
    (D : ℕ) (hmem : ∀ x, dates.contains x = true ↔ d0 ≤ x ∧ x ≤ D) :
    ∀ j f : ℕ, d0 + j ≤ D → j + 2 ≤ f →
      dStreakWalk dates (d0 + j) f = j + 1 := by
  intro j
  induction j with
  | zero =>
      intro f hle hf
      obtain ⟨f1, rfl⟩ : ∃ f1, f = f1 + 1 := ⟨f - 1, by omega⟩
      obtain ⟨f2, rfl⟩ : ∃ f2, f1 = f2 + 1 := ⟨f1 - 1, by omega⟩
      have hm1 : d0 ∈ dates := by
        have h1 := (contains_iff_mem_nat dates (d0 + 0)).mp
          ((hmem (d0 + 0)).mpr ⟨by omega, by omega⟩)
        simpa using h1
      have hm2 : d0 - 1 ∉ dates := by
        intro hcon
        have h2 := (hmem (d0 - 1)).mp ((contains_iff_mem_nat _ _).mpr hcon)
        omega
      simp [dStreakWalk, hm1, hm2]
  | succ m ih =>
      intro f hle hf
      obtain ⟨f1, rfl⟩ : ∃ f1, f = f1 + 1 := ⟨f - 1, by omega⟩
      have hc : dates.contains (d0 + (m + 1)) = true :=
        (hmem _).mpr ⟨by omega, hle⟩
      simp only [dStreakWalk]
      rw [if_pos hc]
      have hstep : d0 + (m + 1) - 1 = d0 + m := by omega
      rw [hstep, ih f1 (by omega) (by omega)]
      omega

theorem c5D_streak_pre (s : DState) (hid d0 diff n : ℕ)
    (hl : s.logs.filter (fun r => r.kind == kindCompletion) =
      (List.range n).map (c5DRow hid d0 diff)) :
    dCalcStreak s hid (d0 + n) = 1 := by
  simp only [dCalcStreak]
  rw [c5D_dates s hid d0 diff n hl (d0 + n) (by omega)]
  cases n with
  | zero => rfl
  | succ m =>
      have hcont : (((List.range (m + 1)).map fun k => d0 + k)).contains
          (d0 + (m + 1)) = false := by
        rw [Bool.eq_false_iff]
        intro hcon
        rw [contains_iff_mem_nat, List.mem_map] at hcon
        obtain ⟨k, hk, hkk⟩ := hcon
        rw [List.mem_range] at hk
        omega
      have hne : ¬((((List.range (m + 1)).map fun k => d0 + k)).isEmpty =
          true) := by
        rw [List.range_succ, List.map_append]
        simp
      rw [if_neg hne]
      have hwalk : dStreakWalk ((List.range (m + 1)).map fun k => d0 + k)
          (d0 + (m + 1)) (d0 + (m + 1) + 1) = 0 := by
        simp only [dStreakWalk]
        rw [if_neg (by rw [hcont]; exact Bool.false_ne_true)]
      rw [hwalk]
      rfl

theorem c5D_streak_post (s : DState) (hid d0 diff n : ℕ) (hd0 : 1 ≤ d0)
    (hl : s.logs.filter (fun r => r.kind == kindCompletion) =
      (List.range (n + 1)).map (c5DRow hid d0 diff)) :
    dCalcStreak s hid (d0 + n) = n + 1 := by
  simp only [dCalcStreak]
  rw [c5D_dates s hid d0 diff (n + 1) hl (d0 + n) (by omega)]
  have hmem : ∀ x, (((List.range (n + 1)).map fun k => d0 + k)).contains x =
      true ↔ d0 ≤ x ∧ x ≤ d0 + n := by
    intro x
    rw [contains_iff_mem_nat, List.mem_map]
    constructor
    · rintro ⟨k, hk, rfl⟩
      rw [List.mem_range] at hk
      omega
    · rintro ⟨h1, h2⟩
      refine ⟨x - d0, ?_, by omega⟩
      rw [List.mem_range]
      omega
  have hne : ¬((((List.range (n + 1)).map fun k => d0 + k)).isEmpty =
      true) := by
    rw [List.range_succ, List.map_append]
    simp
  rw [if_neg hne]
  have hwalk : dStreakWalk ((List.range (n + 1)).map fun k => d0 + k)
      (d0 + n) (d0 + n + 1) = n + 1 :=
    dStreakWalk_interval _ d0 hd0 (d0 + n) hmem n (d0 + n + 1) le_rfl
      (by omega)
  rw [hwalk, if_neg (by simp)]

theorem dScopedAwards_append (l : List DAward) (a : DAward) (nm0 : String)
    (hid : ℕ) :
    dScopedAwards (l ++ [a]) nm0 hid =
      dScopedAwards l nm0 hid ++
        (if a.name = nm0 ∧ a.habit_id = some hid then [a] else []) := by
  unfold dScopedAwards
  rw [List.filter_append]
  congr 1
  split_ifs with hc
  · simp [List.filter, hc.1, hc.2]
  · have hpred : (a.name == nm0 && a.habit_id == some hid) = false := by
      rw [Bool.eq_false_iff]
      intro hcontra
      exact hc (by simpa [Bool.and_eq_true, beq_iff_eq] using hcontra)
    simp [List.filter, hpred]

theorem dAwardWeekly_scoped (s : DState) (h : DHabit) (d : ℕ) (x : ℕ) :
    dScopedAwards (dAwardWeekly s h d).1.awards codeStreak7 x =
      dScopedAwards s.awards codeStreak7 x := by
  unfold dAwardWeekly
  split_ifs with hc
  · dsimp only
    rw [dScopedAwards_append,
      if_neg (fun hcon =>
        absurd hcon.1 (show codeWeekly ≠ codeStreak7 by decide)),
      List.append_nil]
  · rfl

theorem dAwardBadge_scoped_of_ne (s : DState) (hid0 whenD : ℕ) (nm0 : String)
    (h : nm0 ≠ codeStreak7) (x : ℕ) :
    dScopedAwards (dAwardBadge s hid0 whenD nm0).awards codeStreak7 x =
      dScopedAwards s.awards codeStreak7 x := by
  unfold dAwardBadge
  split_ifs with hc
  · rfl
  · dsimp only
    rw [dScopedAwards_append, if_neg (fun hcon => h hcon.1), List.append_nil]

theorem dCondBadge_scoped_of_ne (s : DState) (b : Bool) (hid0 whenD : ℕ)
    (nm0 : String) (h : nm0 ≠ codeStreak7) (x : ℕ) :
    dScopedAwards (if b then dAwardBadge s hid0 whenD nm0 else s).awards
        codeStreak7 x = dScopedAwards s.awards codeStreak7 x := by
  cases b with
  | false => rfl
  | true => simpa using dAwardBadge_scoped_of_ne s hid0 whenD nm0 h x

theorem dAwardBadge_scoped_grant (s : DState) (hid whenD : ℕ)
    (hempty : dScopedAwards s.awards codeStreak7 hid = []) :
    dScopedAwards (dAwardBadge s hid whenD codeStreak7).awards codeStreak7
        hid = [⟨codeStreak7, some hid, whenD, 0, none, none⟩] := by
  unfold dAwardBadge
  have hany : (s.awards.any fun a => a.name == codeStreak7 &&
      a.habit_id == some hid && a.award_date == whenD) = false := by
    rw [List.any_eq_false]
    intro a ha hpred
    simp only [Bool.and_eq_true, beq_iff_eq] at hpred
    have hmem : a ∈ dScopedAwards s.awards codeStreak7 hid := by
      unfold dScopedAwards
      rw [List.mem_filter]
      exact ⟨ha, by simp [hpred.1.1, hpred.1.2]⟩
    rw [hempty] at hmem
    exact List.not_mem_nil a hmem
  rw [if_neg (by rw [hany]; exact Bool.false_ne_true)]
  dsimp only
  rw [dScopedAwards_append, if_pos ⟨rfl, rfl⟩, hempty, List.nil_append]

/-- Full characterisation of a diary run of `n` consecutive-day completions
of one fresh habit: the habit table, the COMPLETION rows of `logs`, and the
(STREAK_7, habit) award list — empty before the 7th call, exactly the one
day-7 grant from it on (the streak rebuilt by consecutive days passes
through 7 exactly once, and `_check_and_award_badges` fires on equality). -/
theorem c5D_spec (hid d0 diff freq : ℕ) (nm : String) (hd0 : 2 ≤ d0) :
    ∀ n : ℕ,
    (dRun (dAddHabit dInit hid nm diff freq) hid d0 n).habits =
      [⟨hid, nm, diff, freq⟩] ∧
    (dRun (dAddHabit dInit hid nm diff freq) hid d0 n).logs.filter
        (fun r => r.kind == kindCompletion) =
      (List.range n).map (c5DRow hid d0 diff) ∧
    dScopedAwards (dRun (dAddHabit dInit hid nm diff freq) hid d0 n).awards
        codeStreak7 hid =
      if 7 ≤ n then [⟨codeStreak7, some hid, d0 + 6, 0, none, none⟩]
      else [] := by
  intro n
  induction n with
  | zero => exact ⟨rfl, rfl, rfl⟩
  | succ n ih =>
      obtain ⟨ha, hl, haw⟩ := ih
      simp only [dRun]
      have hf : dFindHabit (dRun (dAddHabit dInit hid nm diff freq) hid d0 n)
          hid = some ⟨hid, nm, diff, freq⟩ := by
        unfold dFindHabit
        rw [ha]
        exact List.find?_cons_of_pos _ (by simp)
      have hdup : dExistingCount
          (dRun (dAddHabit dInit hid nm diff freq) hid d0 n) hid (d0 + n) =
          0 := c5D_existing _ hid d0 diff n hl
      rw [dLogCompletion_eq_of_ok hf hdup]
      dsimp only
      have hstreak1 : dCalcStreak
          (dRun (dAddHabit dInit hid nm diff freq) hid d0 n) hid (d0 + n) =
          1 := c5D_streak_pre _ hid d0 diff n hl
      have hkind1 : (dPostInsert
          (dRun (dAddHabit dInit hid nm diff freq) hid d0 n)
          ⟨hid, nm, diff, freq⟩ (d0 + n) "").logs.filter
          (fun r => r.kind == kindCompletion) =
          (List.range (n + 1)).map (c5DRow hid d0 diff) := by
        unfold dPostInsert
        dsimp only
        rw [List.filter_append, hl, hstreak1, List.range_succ,
          List.map_append]
        congr 1
      have hkind2 : (dAwardWeekly (dPostInsert
          (dRun (dAddHabit dInit hid nm diff freq) hid d0 n)
          ⟨hid, nm, diff, freq⟩ (d0 + n) "") ⟨hid, nm, diff, freq⟩
          (d0 + n)).1.logs.filter (fun r => r.kind == kindCompletion) =
          (List.range (n + 1)).map (c5DRow hid d0 diff) := by
        rw [dAwardWeekly_kindRows]
        exact hkind1
      have hstreakPost : dCalcStreak (dAwardWeekly (dPostInsert
          (dRun (dAddHabit dInit hid nm diff freq) hid d0 n)
          ⟨hid, nm, diff, freq⟩ (d0 + n) "") ⟨hid, nm, diff, freq⟩
          (d0 + n)).1 hid (d0 + n) = n + 1 :=
        c5D_streak_post _ hid d0 diff n (by omega) hkind2
      have hr1 : dScopedAwards (dAwardWeekly (dPostInsert
          (dRun (dAddHabit dInit hid nm diff freq) hid d0 n)
          ⟨hid, nm, diff, freq⟩ (d0 + n) "") ⟨hid, nm, diff, freq⟩
          (d0 + n)).1.awards codeStreak7 hid =
          dScopedAwards
            (dRun (dAddHabit dInit hid nm diff freq) hid d0 n).awards
            codeStreak7 hid :=
        dAwardWeekly_scoped _ _ (d0 + n) hid
      refine ⟨?_, ?_, ?_⟩
      · rw [(dCheckBadges_frame _ _ _).1, (dAwardWeekly_frame _ _ _).1]
        exact ha
      · rw [dCheckBadges_kindRows, dAwardWeekly_kindRows]
        exact hkind1
      · simp only [dCheckBadges]
        rw [hstreakPost]
        rw [dCondBadge_scoped_of_ne _ _ _ _ _ (by decide),
          dCondBadge_scoped_of_ne _ _ _ _ _ (by decide),
          dCondBadge_scoped_of_ne _ _ _ _ _ (by decide)]
        by_cases h6 : n = 6
        · subst h6
          rw [if_pos (by decide)]
          have hempty : dScopedAwards (dAwardWeekly (dPostInsert
              (dRun (dAddHabit dInit hid nm diff freq) hid d0 6)
              ⟨hid, nm, diff, freq⟩ (d0 + 6) "") ⟨hid, nm, diff, freq⟩
              (d0 + 6)).1.awards codeStreak7 hid = [] :=
            hr1.trans (by simpa using haw)
          rw [dAwardBadge_scoped_grant _ hid (d0 + 6) hempty,
            if_pos (by omega)]
        · rw [if_neg (by simp only [beq_iff_eq]; omega)]
          rw [hr1, haw]
          by_cases h7 : 7 ≤ n
          · rw [if_pos h7, if_pos (by omega)]
          · rw [if_neg h7, if_neg (by omega)]

/-- C5: over a run of `n` completions of a single fresh habit on the
consecutive days `d0, ..., d0 + n - 1` (committed through the engine
itself), the number of STREAK_7 grants scoped to that habit is 0 for every
`n < 7` and exactly 1 for every `n ≥ 7` — in both programs the badge is
granted on the 7th day and on no earlier or later day, because the streak
milestone check fires on exact equality of the streak with the threshold,
never on greater-or-equal. -/
theorem c5_streak7_exactly_on_day_7 :
    (∀ (hid d0 n : ℕ) (nm : String), 2 ≤ d0 →
      jScopedCount (jRun (jAddHabit jInit hid nm) nm d0 n).badges codeStreak7
        hid = if 7 ≤ n then 1 else 0) ∧
    (∀ (hid d0 diff freq n : ℕ) (nm : String), 2 ≤ d0 →
      (dScopedAwards (dRun (dAddHabit dInit hid nm diff freq) hid d0 n).awards
        codeStreak7 hid).length = if 7 ≤ n then 1 else 0) := by
  constructor
  · intro hid d0 n nm hd0
    exact (c5J_spec hid d0 nm hd0 n).2.2
  · intro hid d0 diff freq n nm hd0
    rw [(c5D_spec hid d0 diff freq nm hd0 n).2.2]
    by_cases h7 : 7 ≤ n
    · rw [if_pos h7, if_pos h7]
      rfl
    · rw [if_neg h7, if_neg h7]
      rfl

/-- Witness for C5: a fresh habit logged on consecutive days starting at
ordinal 2 — after 7 calls both engines hold exactly one (STREAK_7, habit)
grant, and the journal holds none after only 6 calls. -/
theorem c5_witness :
    jScopedCount (jRun (jAddHabit jInit 1 "h") "h" 2 7).badges codeStreak7
      1 = 1 ∧
    jScopedCount (jRun (jAddHabit jInit 1 "h") "h" 2 6).badges codeStreak7
      1 = 0 ∧
    (dScopedAwards (dRun (dAddHabit dInit 1 "h" 3 7) 1 2 7).awards
      codeStreak7 1).length = 1 := by
  refine ⟨?_, ?_, ?_⟩
  · have h := c5_streak7_exactly_on_day_7.1 1 2 7 "h" (by decide)
    simpa using h
  · have h := c5_streak7_exactly_on_day_7.1 1 2 6 "h" (by decide)
    simpa using h
  · have h := c5_streak7_exactly_on_day_7.2 1 2 3 7 7 "h" (by decide)
    simpa using h

/-! ## C7: month totals are additive over disjoint months -/

theorem daysBeforeYear_succ (y : ℕ) (hy : 1 ≤ y) :
    daysBeforeYear (y + 1) = daysBeforeYear y + daysInYear y := by
  obtain ⟨k, rfl⟩ : ∃ k, y = k + 1 := ⟨y - 1, by omega⟩
  rfl

theorem daysBeforeYear_le_succ (y : ℕ) :
    daysBeforeYear y ≤ daysBeforeYear (y + 1) := by
  rcases Nat.eq_zero_or_pos y with rfl | hy
  · exact Nat.zero_le _
  · rw [daysBeforeYear_succ y hy]
    exact Nat.le_add_right _ _

theorem daysBeforeYear_mono {y y' : ℕ} (h : y ≤ y') :
    daysBeforeYear y ≤ daysBeforeYear y' := by
  induction h with
  | refl => exact le_rfl
  | step h2 ih => exact ih.trans (daysBeforeYear_le_succ _)

theorem daysBeforeMonth_succ (y m : ℕ) (hm : 1 ≤ m) :
    daysBeforeMonth y (m + 1) = daysBeforeMonth y m + daysInMonth y m := by
  obtain ⟨k, rfl⟩ : ∃ k, m = k + 1 := ⟨m - 1, by omega⟩
  rfl

theorem daysBeforeMonth_le_succ (y m : ℕ) :
    daysBeforeMonth y m ≤ daysBeforeMonth y (m + 1) := by
  rcases Nat.eq_zero_or_pos m with rfl | hm
  · exact Nat.zero_le _
  · rw [daysBeforeMonth_succ y m hm]
    exact Nat.le_add_right _ _

theorem daysBeforeMonth_mono (y : ℕ) {m m' : ℕ} (h : m ≤ m') :
    daysBeforeMonth y m ≤ daysBeforeMonth y m' := by
  induction h with
  | refl => exact le_rfl
  | step h2 ih => exact ih.trans (daysBeforeMonth_le_succ y _)

/-- Calendar consistency: the twelve month lengths of a year sum to its
length. -/
theorem daysBeforeMonth_13 (y : ℕ) : daysBeforeMonth y 13 = daysInYear y := by
  show 0 + daysInMonth y 1 + daysInMonth y 2 + daysInMonth y 3 +
      daysInMonth y 4 + daysInMonth y 5 + daysInMonth y 6 + daysInMonth y 7 +
      daysInMonth y 8 + daysInMonth y 9 + daysInMonth y 10 +
      daysInMonth y 11 + daysInMonth y 12 = daysInYear y
  by_cases h : isLeap y = true
  · simp [daysInMonth, daysInYear, h]
  · simp only [Bool.not_eq_true] at h
    simp [daysInMonth, daysInYear, h]

theorem monthLast_lt_monthFirst (y1 m1 y2 m2 : ℕ)
    (hy1 : 1 ≤ y1) (hm1 : 1 ≤ m1) (hm1' : m1 ≤ 12)
    (hm2 : 1 ≤ m2) (hm2' : m2 ≤ 12)
    (hlt : y1 < y2 ∨ (y1 = y2 ∧ m1 < m2)) :
    monthLast y1 m1 < monthFirst y2 m2 := by
  rcases hlt with hy | ⟨rfl, hm⟩
  · have hlast : monthLast y1 m1 ≤ daysBeforeYear y1 + daysInYear y1 := by
      unfold monthLast toOrdinal
      by_cases h12 : m1 = 12
      · rw [if_pos (by simp [h12])]
        have e0 : daysBeforeMonth (y1 + 1) 1 = 0 := rfl
        have e1 : daysBeforeYear (y1 + 1) =
            daysBeforeYear y1 + daysInYear y1 := daysBeforeYear_succ y1 hy1
        omega
      · rw [if_neg (by simp [h12])]
        have e2 : daysBeforeMonth y1 (m1 + 1) ≤ daysInYear y1 :=
          (daysBeforeMonth_mono y1 (by omega)).trans
            (le_of_eq (daysBeforeMonth_13 y1))
        omega
    have e3 : monthFirst y2 m2 =
        daysBeforeYear y2 + daysBeforeMonth y2 m2 + 1 := rfl
    have e4 : daysBeforeYear y1 + daysInYear y1 ≤ daysBeforeYear y2 := by
      have e5 := daysBeforeYear_succ y1 hy1
      have e6 := daysBeforeYear_mono (show y1 + 1 ≤ y2 by omega)
      omega
    omega
  · have h12 : ¬m1 = 12 := by omega
    have e2 : monthLast y1 m1 =
        daysBeforeYear y1 + daysBeforeMonth y1 (m1 + 1) := by
      unfold monthLast toOrdinal
      rw [if_neg (by simp [h12])]
      omega
    have e3 : monthFirst y1 m2 =
        daysBeforeYear y1 + daysBeforeMonth y1 m2 + 1 := rfl
    have e5 : daysBeforeMonth y1 (m1 + 1) ≤ daysBeforeMonth y1 m2 :=
      daysBeforeMonth_mono y1 (by omega)
    omega

/-- Two distinct valid months have disjoint inclusive day ranges. -/
theorem inMonth_disjoint (y1 m1 y2 m2 d : ℕ)
    (hy1 : 1 ≤ y1) (hm1 : 1 ≤ m1) (hm1' : m1 ≤ 12)
    (hy2 : 1 ≤ y2) (hm2 : 1 ≤ m2) (hm2' : m2 ≤ 12)
    (hne : ¬(y1 = y2 ∧ m1 = m2)) :
    ¬(inMonth y1 m1 d = true ∧ inMonth y2 m2 d = true) := by
  rintro ⟨h1, h2⟩
  unfold inMonth at h1 h2
  simp only [Bool.and_eq_true, decide_eq_true_eq] at h1 h2
  rcases Nat.lt_trichotomy y1 y2 with hy | hy | hy
  · have hlt := monthLast_lt_monthFirst y1 m1 y2 m2 hy1 hm1 hm1' hm2 hm2'
      (Or.inl hy)
    omega
  · subst hy
    rcases Nat.lt_trichotomy m1 m2 with hm | hm | hm
    · have hlt := monthLast_lt_monthFirst y1 m1 y1 m2 hy1 hm1 hm1' hm2 hm2'
        (Or.inr ⟨rfl, hm⟩)
      omega
    · exact hne ⟨rfl, hm⟩
    · have hlt := monthLast_lt_monthFirst y1 m2 y1 m1 hy1 hm2 hm2' hm1 hm1'
        (Or.inr ⟨rfl, hm⟩)
      omega
  · have hlt := monthLast_lt_monthFirst y2 m2 y1 m1 hy2 hm2 hm2' hm1 hm1'
      (Or.inl hy)
    omega

/-- Splitting a filtered sum along two pointwise-disjoint predicates. -/
theorem sum_filter_disjoint {α : Type} (f : α → ℤ) (p q : α → Bool)
    (hdisj : ∀ a, ¬(p a = true ∧ q a = true)) (l : List α) :
    ((l.filter p).map f).sum + ((l.filter q).map f).sum =
      ((l.filter (fun a => p a || q a)).map f).sum := by
  induction l with
  | nil => rfl
  | cons a l ih =>
      by_cases hp : p a = true
      · by_cases hq : q a = true
        · exact absurd ⟨hp, hq⟩ (hdisj a)
        · have hq' : q a = false := by rwa [Bool.not_eq_true] at hq
          rw [List.filter_cons, if_pos hp, List.filter_cons, if_neg hq,
            List.filter_cons,
            if_pos (show (fun x => p x || q x) a = true by
              show (p a || q a) = true
              rw [hp, Bool.true_or])]
          simp only [List.map_cons, List.sum_cons]
          omega
      · have hp' : p a = false := by rwa [Bool.not_eq_true] at hp
        by_cases hq : q a = true
        · rw [List.filter_cons, if_neg hp, List.filter_cons, if_pos hq,
            List.filter_cons,
            if_pos (show (fun x => p x || q x) a = true by
              show (p a || q a) = true
              rw [hp', hq, Bool.false_or])]
          simp only [List.map_cons, List.sum_cons]
          omega
        · rw [List.filter_cons, if_neg hp, List.filter_cons, if_neg hq,
            List.filter_cons,
            if_neg (show ¬((fun x => p x || q x) a = true) by
              show ¬((p a || q a) = true)
              have hq' : q a = false := by rwa [Bool.not_eq_true] at hq
              rw [hp', hq', Bool.false_or]
              exact Bool.false_ne_true)]
          exact ih

/-- C7: in both programs the month report's points total is the pure
filtered sum of the stored log rows dated in the month's inclusive range,
and for two distinct valid months the two totals add up exactly to the
total over the union of the two ranges (the ranges are disjoint, so no row
is counted twice and none is dropped). -/
theorem c7_month_totals_additive (sj : JState) (sd : DState)
    (y1 m1 y2 m2 : ℕ) (hy1 : 1 ≤ y1) (hm1 : 1 ≤ m1) (hm1' : m1 ≤ 12)
    (hy2 : 1 ≤ y2) (hm2 : 1 ≤ m2) (hm2' : m2 ≤ 12)
    (hne : ¬(y1 = y2 ∧ m1 = m2)) :
    jMonthPoints sj y1 m1 + jMonthPoints sj y2 m2 =
      jUnionPoints sj y1 m1 y2 m2 ∧
    dMonthTotalPoints sd y1 m1 + dMonthTotalPoints sd y2 m2 =
      dUnionPoints sd y1 m1 y2 m2 := by
  constructor
  · unfold jMonthPoints jUnionPoints
    exact sum_filter_disjoint _ _ _
      (fun r => inMonth_disjoint y1 m1 y2 m2 r.date hy1 hm1 hm1' hy2 hm2 hm2'
        hne) sj.logs
  · unfold dMonthTotalPoints dUnionPoints
    exact sum_filter_disjoint _ _ _
      (fun r => inMonth_disjoint y1 m1 y2 m2 r.log_date hy1 hm1 hm1' hy2 hm2
        hm2' hne) sd.logs

/-- Witness for C7: February and March of year 1, with one log row in each
month per program. -/
theorem c7_witness :
    jMonthPoints ⟨[], [⟨1, 40, true, 10, 1, ""⟩, ⟨1, 70, true, 7, 1, ""⟩],
        []⟩ 1 2 +
      jMonthPoints ⟨[], [⟨1, 40, true, 10, 1, ""⟩, ⟨1, 70, true, 7, 1, ""⟩],
        []⟩ 1 3 =
      jUnionPoints ⟨[], [⟨1, 40, true, 10, 1, ""⟩, ⟨1, 70, true, 7, 1, ""⟩],
        []⟩ 1 2 1 3 ∧
    dMonthTotalPoints ⟨[], [⟨1, 40, true, 10, kindCompletion, ""⟩,
        ⟨1, 70, true, 7, kindCompletion, ""⟩], []⟩ 1 2 +
      dMonthTotalPoints ⟨[], [⟨1, 40, true, 10, kindCompletion, ""⟩,
        ⟨1, 70, true, 7, kindCompletion, ""⟩], []⟩ 1 3 =
      dUnionPoints ⟨[], [⟨1, 40, true, 10, kindCompletion, ""⟩,
        ⟨1, 70, true, 7, kindCompletion, ""⟩], []⟩ 1 2 1 3 :=
  c7_month_totals_additive _ _ 1 2 1 3 (by decide) (by decide) (by decide)
    (by decide) (by decide) (by decide) (by decide)

/-! ## C2: streak semantics (code-bug evidence) -/

/-- C2 (code-bug evidence): with a committed point-bearing completion of a
hard habit on day 8, `habit_diary.log_completion` for day 9 computes the
streak for the points award before inserting day 9's row; since the walk of
`_calculate_streak_length` starts at day 9 and day 9 has no completion row
yet, it stops immediately and returns 1, not 2.  The call therefore awards
`dCalcPoints 3 1 = 15` points instead of the `dCalcPoints 3 2 = 16` the
claimed streak semantics would give, while the same streak function
evaluated after the insert (as the badge path evaluates it) does return 2
for the 2nd consecutive day. -/
theorem c2_diary_points_streak_stuck_at_one :
    dCalcStreak c2State 1 9 = 1 ∧
    (dLogCompletion c2State 1 9 "").2 = Except.ok 15 ∧
    dCalcPoints 3 1 = 15 ∧ dCalcPoints 3 2 = 16 ∧
    dCalcStreak (dLogCompletion c2State 1 9 "").1 1 9 = 2 :=
  ⟨by decide, rfl, by decide, by decide, by decide⟩

/-- Witness for C4 at difficulty 3 (hard), streaks 2 ≤ 12. -/
theorem c4_witness :
    dCalcPoints 3 2 ≤ dCalcPoints 3 12 ∧
    (dCalcPoints 3 2 : ℚ) ≤
      BASE_POINTS * DIFFICULTY_MULTIPLIER 3 *
        (1 + MAX_STREAK_BONUS_MULTIPLIER) ∧
    (∀ prior, jCompletionPoints 2 prior ≤ jCompletionPoints 12 prior) ∧
    jCompletionPoints 2 0 ≤ 30 :=
  c4_pointsFor_monotone_capped 3 2 12 (by decide)

end HabitSpec
